import Mathlib

/-
Verification of the talend-project static-analysis tool (src/talend.py).

The Python code is shallowly embedded: Python dicts become ordered
association lists (insertion order preserved, assignment updates the
existing entry in place), Python sets become duplicate-free lists,
fallible operations (KeyError, IOError, UnboundLocalError, unbounded
recursion) become `Except String` results, and the recursive
project-level traversals take an explicit fuel parameter.
-/

set_option maxHeartbeats 1000000

namespace Talend

/-! ### Ordered dictionaries (Python `dict` semantics) -/

/-- Lookup in an ordered association list (Python `d[k]` / `d.get(k)`). -/
def dGet [DecidableEq κ] : List (κ × β) → κ → Option β
  | [], _ => none
  | (a, b) :: rest, k => if a = k then some b else dGet rest k

/-- Key-membership test (Python `k in d`). -/
def dHas [DecidableEq κ] : List (κ × β) → κ → Bool
  | [], _ => false
  | (a, _) :: rest, k => a = k || dHas rest k

/-- Replace the value at an existing key, keeping its position. -/
def dRep [DecidableEq κ] : List (κ × β) → κ → β → List (κ × β)
  | [], _, _ => []
  | (a, b) :: rest, k, v => if a = k then (k, v) :: rest else (a, b) :: dRep rest k v

/-- Python dict assignment `d[k] = v`: update in place when the key exists,
append at the end otherwise. -/
def dIns [DecidableEq κ] (d : List (κ × β)) (k : κ) (v : β) : List (κ × β) :=
  if dHas d k then dRep d k v else d ++ [(k, v)]

/-- Python `d.update(other)`: fold `d[k] = v` over the entries of `other`. -/
def dUpd [DecidableEq κ] (d other : List (κ × β)) : List (κ × β) :=
  other.foldl (fun d kv => dIns d kv.1 kv.2) d

/-- Python `d[k]` with KeyError surfaced as an `Except` error. -/
def dGetE [DecidableEq κ] (d : List (κ × β)) (k : κ) (msg : String) : Except String β :=
  match dGet d k with
  | some v => Except.ok v
  | none => Except.error msg

/-- Keys of an ordered dictionary, in order. -/
def dKeys (d : List (κ × β)) : List κ := d.map (·.1)

/-! ### Python string / value helpers -/

/-- Boolean prefix test on character lists. -/
def isPrefixB : List Char → List Char → Bool
  | [], _ => true
  | _ :: _, [] => false
  | a :: as, b :: bs => a == b && isPrefixB as bs

/-- Boolean substring (infix) test on character lists. -/
def isInfixB (pat : List Char) : List Char → Bool
  | [] => isPrefixB pat []
  | b :: bs => isPrefixB pat (b :: bs) || isInfixB pat bs

/-- Python `pat in s` substring test. -/
def strContains (s pat : String) : Bool := isInfixB pat.data s.data

/-- Python truthiness of an `Option Bool` attribute (`None` is falsy). -/
def truthy : Option Bool → Bool
  | some b => b
  | none => false

/-- ASCII lower-casing of one character (the component names and marker
substrings the code lower-cases are all ASCII). -/
def lowerChar (c : Char) : Char :=
  if c.toNat ≥ 65 && c.toNat ≤ 90 then Char.ofNat (c.toNat + 32) else c

/-- Python `s.lower()` (ASCII). -/
def strLower (s : String) : String := ⟨s.data.map lowerChar⟩

/-- ASCII upper-casing of one character. -/
def upperChar (c : Char) : Char :=
  if c.toNat ≥ 97 && c.toNat ≤ 122 then Char.ofNat (c.toNat - 32) else c

/-- Python `s.upper()` (ASCII). -/
def strUpper (s : String) : String := ⟨s.data.map upperChar⟩

/-- Python `s.strip(c)` for a single character: drop it from both ends. -/
def stripChar (c : Char) (s : String) : String :=
  ⟨((s.data.dropWhile (· = c)).reverse.dropWhile (· = c)).reverse⟩

/-- Python `s.replace(c, '')` for a single character: drop every occurrence. -/
def removeChar (c : Char) (s : String) : String :=
  ⟨s.data.filter (· ≠ c)⟩

/-- Python `set.add` on a duplicate-free list model of a set. -/
def setAdd [DecidableEq α] (l : List α) (x : α) : List α :=
  if x ∈ l then l else l ++ [x]

/-- Dynamically-typed Python values, as needed for the cross-type
comparison in `TalendProject.get_database_info`. -/
inductive PyV where
  | vnone : PyV
  | vstr : String → PyV
  | vtuple : List PyV → PyV
deriving Repr

/-- Python `==` on `PyV`: values of different types are never equal
(`str.__eq__(tuple)` returns `NotImplemented` and the fallback identity
test fails for distinct objects). -/
def PyV.peq : PyV → PyV → Bool
  | .vnone, .vnone => true
  | .vstr a, .vstr b => a == b
  | .vtuple [], .vtuple [] => true
  | .vtuple (x :: xs), .vtuple (y :: ys) => PyV.peq x y && PyV.peq (.vtuple xs) (.vtuple ys)
  | _, _ => false

/-- Decidable equality for `Except` results, used to evaluate concrete
runs in witnesses. -/
instance [DecidableEq e] [DecidableEq a] : DecidableEq (Except e a) := fun x y =>
  match x, y with
  | Except.error a1, Except.error a2 =>
    if h : a1 = a2 then isTrue (by rw [h]) else isFalse (fun he => h (Except.error.inj he))
  | Except.ok a1, Except.ok a2 =>
    if h : a1 = a2 then isTrue (by rw [h]) else isFalse (fun he => h (Except.ok.inj he))
  | Except.error _, Except.ok _ => isFalse (fun he => Except.noConfusion he)
  | Except.ok _, Except.error _ => isFalse (fun he => Except.noConfusion he)

/-! ### XML document model

`TalendJob.parse` walks the XML root's direct children and, inside each,
its direct children's tags and attributes only, so a two-level element
model captures exactly what the code reads. -/

/-- A child element of a top-level XML element (only tag and attributes
are ever read). -/
structure XSub where
  tag : String
  attrib : List (String × String)
deriving Repr, DecidableEq

/-- A top-level XML element of a job document. -/
structure XElem where
  tag : String
  attrib : List (String × String)
  children : List XSub
deriving Repr, DecidableEq

/-! ### TalendJob -/

/-- State of one `TalendJob` object (src/talend.py, class TalendJob).
`doc` is the XML content behind `gitfile` (top-level elements of the
parsed stream); `streamReads` counts how many times the content stream
has been opened and read. -/
structure TalendJob where
  name : String
  path : String
  version : Option Rat
  nodes : List (String × List (String × String))
  connections : List (Option String × String)
  context : List (String × List (String × String))
  children : List String
  doc : List XElem
  use_teradata : Option Bool
  use_files : Bool
  parsed : Bool
  tables : List String
  streamReads : Nat
deriving Repr, DecidableEq

/-- A fresh, unparsed job as built by `TalendJob.__init__` with
`parse=False` (the only mode `TalendProject._load` uses). -/
def mkJob (name path : String) (version : Option Rat) (doc : List XElem) : TalendJob :=
  { name := name, path := path, version := version, nodes := [], connections := [],
    context := [], children := [], doc := doc, use_teradata := none, use_files := false,
    parsed := false, tables := [], streamReads := 0 }

/-- The fields of a `TalendJob` that `parse` mutates, threaded through the
element loop as an accumulator. -/
structure ParseAcc where
  nodes : List (String × List (String × String))
  connections : List (Option String × String)
  context : List (String × List (String × String))
  children : List String
  tables : List String
  use_teradata : Option Bool
  use_files : Bool
deriving Repr, DecidableEq

/-- Parameter collection for a node element: every child whose tag
contains "elementParameter" and that carries a `value` attribute
contributes `attrib['name'] -> attrib['value']` (talend.py lines 320-324);
a missing `name` attribute is a KeyError. -/
def collectParams (e : XElem) : Except String (List (String × String)) :=
  e.children.foldlM
    (fun params el =>
      if strContains el.tag "elementParameter" && dHas el.attrib "value" then do
        let n ← dGetE el.attrib "name" "KeyError: name"
        let v ← dGetE el.attrib "value" "KeyError: value"
        Except.ok (dIns params n v)
      else Except.ok params)
    []

/-- The `use_teradata` / `use_files` flag updates for one retained node
(talend.py lines 331-335). -/
def nodeFlagsUpdate (acc : ParseAcc) (comp : String) : ParseAcc :=
  let acc := if !truthy acc.use_teradata && strContains (strLower comp) "teradata" then
      { acc with use_teradata := some true } else acc
  if !acc.use_files && strContains (strLower comp) "file" then
    { acc with use_files := true } else acc

/-- The child-recording step for a job-invocation node (talend.py lines
339-340): append the `PROCESS` parameter (a KeyError if absent). -/
def nodeChildUpdate (acc : ParseAcc) (params : List (String × String)) (comp : String) :
    Except String ParseAcc :=
  if comp = "tRunJob" then do
    let proc ← dGetE params "PROCESS" "KeyError: PROCESS"
    Except.ok { acc with children := acc.children ++ [proc] }
  else Except.ok acc

/-- The table-recording step (talend.py lines 343-346): a present,
non-empty `TABLE` parameter adds the quote-stripped `DBNAME.TABLE`
string to the tables set. -/
def nodeTableUpdate (acc : ParseAcc) (params : List (String × String)) : ParseAcc :=
  match dGet params "TABLE" with
  | some table =>
    if table ≠ "" then
      { acc with tables := setAdd acc.tables (removeChar '"' (((dGet params "DBNAME").getD "") ++ "." ++ table)) }
    else acc
  | none => acc

/-- Handling of one `node` top-level element (talend.py lines 319-346). -/
def parseNodeElem (acc : ParseAcc) (e : XElem) : Except String ParseAcc := do
  let params ← collectParams e
  if dHas params "ACTIVATE" && dGet params "ACTIVATE" == some "false" then
    Except.ok acc
  else do
    let comp ← dGetE e.attrib "componentName" "KeyError: componentName"
    let params := dIns params "_componentName" comp
    let acc := nodeFlagsUpdate acc comp
    let uniq ← dGetE params "UNIQUE_NAME" "KeyError: UNIQUE_NAME"
    let acc := { acc with nodes := dIns acc.nodes uniq params }
    let acc ← nodeChildUpdate acc params comp
    Except.ok (nodeTableUpdate acc params)

/-- Handling of one `connection` top-level element (talend.py lines
348-359): the connection is retained only when its `ACTIVATE` parameter
value is exactly the string "true" (`connection_activated` starts as the
Python `False`, modelled by `none`). -/
def parseConnElem (acc : ParseAcc) (e : XElem) : Except String ParseAcc := do
  let ctype ← dGetE e.attrib "connectorName" "KeyError: connectorName"
  let st ← e.children.foldlM
    (fun (st : Option String × Option String) el =>
      if strContains el.tag "elementParameter" then do
        let n ← dGetE el.attrib "name" "KeyError: name"
        if n = "ACTIVATE" then do
          let v ← dGetE el.attrib "value" "KeyError: value"
          Except.ok (some v, st.2)
        else if n = "UNIQUE_NAME" then do
          let v ← dGetE el.attrib "value" "KeyError: value"
          Except.ok (st.1, some v)
        else Except.ok st
      else Except.ok st)
    (none, none)
  if st.1 = some "true" then
    Except.ok { acc with connections := dIns acc.connections st.2 ctype }
  else Except.ok acc

/-- Handling of one `context` top-level element (talend.py lines
360-365): every direct child contributes a `name -> value` entry; a later
group with the same name replaces the earlier one wholesale. -/
def parseCtxElem (acc : ParseAcc) (e : XElem) : Except String ParseAcc := do
  let cname ← dGetE e.attrib "name" "KeyError: name"
  let params ← e.children.foldlM
    (fun params el => do
      let n ← dGetE el.attrib "name" "KeyError: name"
      let v ← dGetE el.attrib "value" "KeyError: value"
      Except.ok (dIns params n v))
    []
  Except.ok { acc with context := dIns acc.context cname params }

/-- Dispatch on a top-level element by substring of its tag, in the
source's `if/elif` order; other tags are ignored. -/
def parseElem (acc : ParseAcc) (e : XElem) : Except String ParseAcc :=
  if strContains e.tag "node" then parseNodeElem acc e
  else if strContains e.tag "connection" then parseConnElem acc e
  else if strContains e.tag "context" then parseCtxElem acc e
  else Except.ok acc

/-- The accumulator a parse run starts from: the job's current
collections, with both usage flags reset to `False` (talend.py lines
314-315). -/
def parseInit (j : TalendJob) : ParseAcc :=
  { nodes := j.nodes, connections := j.connections, context := j.context,
    children := j.children, tables := j.tables, use_teradata := some false,
    use_files := false }

/-- `TalendJob.parse` (talend.py lines 305-370): a no-op when already
parsed; otherwise read the stream once, walk the document's top-level
elements, and mark the job parsed. -/
def TalendJob.parse (j : TalendJob) : Except String TalendJob :=
  if j.parsed then Except.ok j
  else
    match j.doc.foldlM parseElem (parseInit j) with
    | Except.error e => Except.error e
    | Except.ok acc =>
      Except.ok { j with
        nodes := acc.nodes, connections := acc.connections, context := acc.context,
        children := acc.children, tables := acc.tables,
        use_teradata := acc.use_teradata, use_files := acc.use_files,
        parsed := true, streamReads := j.streamReads + 1 }

/-- The `if not self.parsed: self.parse()` pattern that guards every
consumer of a job's parsed state. -/
def TalendJob.ensureParsed (j : TalendJob) : Except String TalendJob :=
  if j.parsed then Except.ok j else j.parse

/-! ### Rule Engine (TalendJob.review and its static tables) -/

/-- One reported violation: `component` is the node / connection key the
code attributes the problem to (`none` for a connection stored under the
Python `None` key), `type` is only set by the vendor-credential rules. -/
structure Violation where
  component : Option String
  type : Option String
  message : String
deriving Repr, DecidableEq

/-- Review results: rule id -> job name -> violations, all in insertion
order. -/
abbrev ReviewResult := List (String × List (String × List Violation))

/-- The uniform parameter table `TalendJob.check_params` (lines 373-377). -/
def check_params : List (String × String) :=
  [("DIE_ON_ERROR", "true"),
   ("DIE_ON_CHILD_ERROR", "true"),
   ("USE_INDEPENDENT_PROCESS", "false"),
   ("TRANSMIT_ORIGINAL_CONTEXT", "true"),
   ("TRANSMIT_WHOLE_CONTEXT", "true")]

/-- The file-component parameter table `TalendJob.file_params` (lines
380-383); the `FAILON` entry is commented out in the source. -/
def file_params : List (String × String) :=
  [("CREATEDIR", "false"),
   ("CREATE", "false"),
   ("MKDIR", "false"),
   ("CREATE_DIRECTORY", "false")]

/-- The vendor-credential table `TalendJob.edw_params` (lines 386-388). -/
def edw_params : List (String × List String) :=
  [("HOST", ["context.EDW_HOST"]),
   ("USER", ["context.EDW_USER"]),
   ("PASS", ["context.EDW_PASS", "4D9onkGJm3fNdrQLmTZZevT3q6F0Z4TqEncrypt"])]

/-- Required context keys `TalendJob.edw_context` (line 390). -/
def edw_context : List String := ["EDW_HOST", "EDW_USER", "EDW_PASS"]

/-- The message format shared by all parameter rules (line 423). -/
def fmtMsg (param expected actual : String) : String :=
  "Value '" ++ param ++ "' must be set to '" ++ expected ++ "' (actual: '" ++ actual ++ "')"

/-- `results[rule][name].append(v)`; both keys are pre-initialized by
`review`, so the KeyError branches are unreachable and modelled as
no-ops. -/
def appendViol (res : ReviewResult) (rule name : String) (v : Violation) : ReviewResult :=
  match dGet res rule with
  | none => res
  | some inner =>
    match dGet inner name with
    | none => res
    | some l => dIns res rule (dIns inner name (l ++ [v]))

/-- The initial result skeleton (lines 401-406): every rule id mapped to
`{job name: []}`, in the order the code creates the keys. -/
def initResults (name : String) : ReviewResult :=
  (check_params.map (fun kv => (kv.1, [(name, ([] : List Violation))])))
  ++ (edw_params.map (fun kv => (kv.1, [(name, ([] : List Violation))])))
  ++ (file_params.map (fun kv => (kv.1, [(name, ([] : List Violation))])))
  ++ [("ON_COMPONENT_ERROR", [(name, [])]), ("CONTEXT", [(name, [])]), ("QUERY", [(name, [])])]

/-- The loop `for param in table: flag if defined and different`
(lines 419-426 and 445-453). -/
def paramLoop (table : List (String × String)) (jname : String) (res : ReviewResult)
    (node : String) (params : List (String × String)) : ReviewResult :=
  table.foldl
    (fun res pe =>
      match dGet params pe.1 with
      | some v =>
        if v ≠ pe.2 then
          appendViol res pe.1 jname ⟨some node, none, fmtMsg pe.1 pe.2 v⟩
        else res
      | none => res)
    res

/-- The vendor-credential check per node (lines 429-442): only on
teradata-family components of a teradata-using job without
`USE_EXISTING_CONNECTION=true`; a password-like value containing
"Encrypt" is masked. -/
def edwCheck (j : TalendJob) (res : ReviewResult) (node : String)
    (params : List (String × String)) : Except String ReviewResult :=
  if truthy j.use_teradata then do
    let comp ← dGetE params "_componentName" "KeyError: _componentName"
    if strContains (strLower comp) "teradata" &&
        (!dHas params "USE_EXISTING_CONNECTION"
          || dGet params "USE_EXISTING_CONNECTION" == some "false") then
      edw_params.foldlM
        (fun res pa => do
          match dGet params pa.1 with
          | some v =>
            if !pa.2.contains v then do
              let msg := if strContains v "Encrypt" then "*ENCRYPTED*" else v
              let ty ← dGetE params "TYPE" "KeyError: TYPE"
              Except.ok (appendViol res pa.1 j.name ⟨some node, some ty, fmtMsg pa.1 (pa.2.headD "") msg⟩)
            else Except.ok res
          | none => Except.ok res)
        res
    else Except.ok res
  else Except.ok res

/-- The file-parameter check per node (lines 445-453). -/
def fileCheck (j : TalendJob) (res : ReviewResult) (node : String)
    (params : List (String × String)) : ReviewResult :=
  if j.use_files then paramLoop file_params j.name res node params else res

/-- Everything `review` does for one node after the disabled-node check
(lines 419-453). -/
def reviewNodeCore (j : TalendJob) (res : ReviewResult) (node : String)
    (params : List (String × String)) : Except String ReviewResult := do
  let res := paramLoop check_params j.name res node params
  let res ← edwCheck j res node params
  Except.ok (fileCheck j res node params)

/-- One iteration of the node loop of `review`, including the
disabled-node skip check (lines 408-411). -/
def reviewNode (j : TalendJob) (res : ReviewResult) (node : String)
    (params : List (String × String)) : Except String ReviewResult :=
  if dHas params "ACTIVATE" && dGet params "ACTIVATE" == some "false" then
    Except.ok res
  else reviewNodeCore j res node params

/-- The context-completeness check (lines 456-465): when the job uses
teradata, the key set of the first context group is consulted; with no
context group at all the Python local `ctx_keys` is read unbound. -/
def contextCheck (j : TalendJob) (res : ReviewResult) : Except String ReviewResult :=
  if truthy j.use_teradata then
    match j.context.head? with
    | none => Except.error "UnboundLocalError: local variable ctx_keys referenced before assignment"
    | some g =>
      let ctx_keys := g.2.map (·.1)
      Except.ok (edw_context.foldl
        (fun res k =>
          if ctx_keys.contains k then res
          else appendViol res "CONTEXT" j.name
            ⟨some "Context", none, "Teradata job detected but missing context parameter '" ++ k ++ "'"⟩)
        res)
  else Except.ok res

/-- The deprecated-trigger check over retained connections (lines
468-473). -/
def connCheck (j : TalendJob) (res : ReviewResult) : ReviewResult :=
  j.connections.foldl
    (fun res cn =>
      if cn.2 = "COMPONENT_ERROR" || cn.2 = "ON_COMPONENT_ERROR" then
        appendViol res "ON_COMPONENT_ERROR" j.name
          ⟨cn.1, none, "'OnComponentError' trigger depreciated. Use 'if' trigger instead."⟩
      else res)
    res

/-- `TalendJob.review` (lines 392-476), parameterized by the node step so
that the reachable code can be compared with the variant whose
disabled-node check is removed. -/
def reviewWith
    (step : TalendJob → ReviewResult → String → List (String × String) → Except String ReviewResult)
    (j : TalendJob) : Except String ReviewResult := do
  let j ← j.ensureParsed
  let res := initResults j.name
  let res ← j.nodes.foldlM (fun res np => step j res np.1 np.2) res
  let res ← contextCheck j res
  let res := connCheck j res
  Except.ok (res.filter (fun ri => !((dGet ri.2 j.name).getD []).isEmpty))

/-- `TalendJob.review` as written (with the disabled-node skip check). -/
def reviewE (j : TalendJob) : Except String ReviewResult := reviewWith reviewNode j

/-- The variant of `review` whose disabled-node check is removed, used to
state that the check is dead code. -/
def reviewNoSkipE (j : TalendJob) : Except String ReviewResult := reviewWith reviewNodeCore j

/-! ### Project Registry -/

/-- One job name's entry in `TalendProject.versions`: the `LATEST`
marker plus the `version number -> item path` dictionary. -/
structure VersionEntry where
  latest : Rat
  files : List (Rat × String)
deriving Repr, DecidableEq

/-- The version-registry fold of `TalendProject._load` (lines 52-66).
Each discovered item path `i` is abbreviated to its extracted
`(name, version, path)` triple — the extraction
(`i.split('/')[-1][:-9]`, `float(i.split('_')[-1][:-5])`) is a pure
per-item function, so quantifying over triple lists quantifies over
discovery orders.  The `'LATEST' in self.versions[name]` test is always
true (the key is set when the entry is created) and is dropped. -/
def loadStep (vs : List (String × VersionEntry)) (it : String × Rat × String) :
    List (String × VersionEntry) :=
  match dGet vs it.1 with
  | some e =>
    dIns vs it.1
      ⟨if it.2.1 > e.latest then it.2.1 else e.latest, dIns e.files it.2.1 it.2.2⟩
  | none => dIns vs it.1 ⟨it.2.1, [(it.2.1, it.2.2)]⟩

/-- The registry built by folding `loadStep` over the discovered items. -/
def loadVersions (items : List (String × Rat × String)) : List (String × VersionEntry) :=
  items.foldl loadStep []

/-- State of a `TalendProject`: the version registry and the
`item path -> job` dictionary. -/
structure TalendProject where
  versions : List (String × VersionEntry)
  jobs : List (String × TalendJob)
deriving Repr, DecidableEq

/-- `TalendProject.__getitem__` (lines 69-74): a name containing "item"
is treated as a raw item path, anything else resolves through the
version registry's `LATEST` pointer; missing keys are KeyErrors. -/
def TalendProject.lookupJob (p : TalendProject) (job_name : String) : Except String TalendJob :=
  if strContains job_name "item" then
    dGetE p.jobs job_name ("KeyError: " ++ job_name)
  else do
    let e ← dGetE p.versions job_name ("KeyError: " ++ job_name)
    let path ← dGetE e.files e.latest "KeyError: LATEST version"
    dGetE p.jobs path ("KeyError: " ++ path)

/-- Resolve a job and parse it if needed (`if not self[j].parsed:
self[j].parse()`).  The in-place mutation of the registry entry is not
threaded: `parse` is deterministic, so re-parsing an already-looked-up
job yields the same job state. -/
def TalendProject.lookupParsed (p : TalendProject) (job_name : String) : Except String TalendJob := do
  let j ← p.lookupJob job_name
  j.ensureParsed

/-- `TalendProject.get_master_jobs` (lines 242-251): mark every
referenced child non-master in one pass, then keep the still-true keys. -/
def TalendProject.get_master_jobs (p : TalendProject) : Except String (List String) := do
  let init : List (String × Bool) := p.versions.map (fun nv => (nv.1, true))
  let masters ← p.versions.foldlM
    (fun acc nv => do
      let j ← p.lookupParsed nv.1
      Except.ok (j.children.foldl (fun acc c => dIns acc c false) acc))
    init
  Except.ok ((masters.filter (·.2)).map (·.1))

/-- The merge step of `TalendProject.review` for one child result
(lines 154-158): a rule id absent from the accumulator is adopted
wholesale, an existing one has its per-job dictionary `dict.update`d —
so an equal job name's violation list is replaced, not concatenated. -/
def mergeStep (ret : ReviewResult) (ei : String × List (String × List Violation)) :
    ReviewResult :=
  match dGet ret ei.1 with
  | none => dIns ret ei.1 ei.2
  | some old => dIns ret ei.1 (dUpd old ei.2)

/-- The whole child-result merge: fold `mergeStep` over the child's rule
entries. -/
def mergeErrs (ret child_errs : ReviewResult) : ReviewResult :=
  child_errs.foldl mergeStep ret

/-- `TalendProject.review(job, children)` for a truthy job argument
(lines 144-159), with explicit recursion fuel.  The falsy branch
(review every job) stores whole per-job review mappings under job names
— a differently-shaped result — and is outside the claims, so an empty
job name (falsy in Python) is surfaced as an error. -/
def TalendProject.reviewP (p : TalendProject) : Nat → String → Bool → Except String ReviewResult
  | 0, _, _ => Except.error "RecursionError: maximum recursion depth exceeded"
  | fuel + 1, job, children => do
    if job = "" then Except.error "unmodeled: falsy job argument (all-jobs branch)"
    else do
      let jb ← p.lookupJob job
      let jbp ← jb.ensureParsed
      let own ← reviewE jbp
      if children then
        jbp.children.foldlM
          (fun ret child => do
            let child_errs ← p.reviewP fuel child true
            Except.ok (mergeErrs ret child_errs))
          own
      else Except.ok own

/-- Merge written from the specification's words for claim C2: by
rule-id, then by job-name, concatenating the violation lists when the
same rule-id and job-name occur in both operands. -/
def concatMerge (ret child_errs : ReviewResult) : ReviewResult :=
  child_errs.foldl
    (fun ret ei =>
      match dGet ret ei.1 with
      | none => dIns ret ei.1 ei.2
      | some old =>
        dIns ret ei.1
          (ei.2.foldl
            (fun old ni =>
              match dGet old ni.1 with
              | none => dIns old ni.1 ni.2
              | some l0 => dIns old ni.1 (l0 ++ ni.2))
            old))
    ret

/-- Nested job-name -> children mapping returned by `tree_view`. -/
inductive JTree where
  | mk : List (String × JTree) → JTree

/-- Entries of a tree node. -/
def JTree.entries : JTree → List (String × JTree)
  | .mk l => l

/-- Whether a tree node has no entries. -/
def JTree.isEmptyT : JTree → Bool
  | .mk l => l.isEmpty

/-- Python membership `root in self.versions` for an optional root:
`None` is never equal to a string key. -/
def pyOptMem (root : Option String) (versions : List (String × VersionEntry)) : Bool :=
  match root with
  | none => false
  | some r => dHas versions r

/-- `TalendProject.tree_view` (lines 253-265) with explicit fuel.  The
code first returns `{}` whenever `root` is not a key of `versions` —
which `None` never is — and only then distinguishes a truthy root from
the master-forest branch, so the latter is reachable only for an empty
string job name. -/
def TalendProject.tree_view (p : TalendProject) : Nat → Option String → Except String JTree
  | 0, _ => Except.error "RecursionError: maximum recursion depth exceeded"
  | fuel + 1, root =>
    if !pyOptMem root p.versions then Except.ok (JTree.mk [])
    else
      match root with
      | some r =>
        if r ≠ "" then do
          let jb ← p.lookupJob r
          let entries ← jb.children.foldlM
            (fun (entries : List (String × JTree)) child => do
              let ct ← p.tree_view fuel (some child)
              match dGet ct.entries child with
              | some sub => Except.ok (dIns entries child sub)
              | none => Except.error ("KeyError: " ++ child))
            []
          Except.ok (JTree.mk [(r, JTree.mk entries)])
        else do
          let masters ← p.get_master_jobs
          let entries ← masters.foldlM
            (fun (entries : List (String × JTree)) master => do
              let t ← p.tree_view fuel (some master)
              Except.ok (dUpd entries t.entries))
            []
          Except.ok (JTree.mk entries)
      | none => do
        let masters ← p.get_master_jobs
        let entries ← masters.foldlM
          (fun (entries : List (String × JTree)) master => do
            let t ← p.tree_view fuel (some master)
            Except.ok (dUpd entries t.entries))
          []
        Except.ok (JTree.mk entries)

/-! ### Database-connection inventory -/

/-- A `(host, database, user)` endpoint as collected by
`TalendJob.get_database_info`. -/
abbrev DbTriple := String × String × Option String

/-- `TalendJob.get_database_info` (lines 478-494): per node without
`USE_EXISTING_CONNECTION=true`, collect the uppercased host, the
quote-stripped uppercased database and the user; a falsy (`None` or
empty) host or database drops the node. -/
def TalendJob.get_database_info (j : TalendJob) : Except String (List DbTriple) := do
  let j ← j.ensureParsed
  Except.ok (j.nodes.foldl
    (fun info np =>
      let node := np.2
      if dGet node "USE_EXISTING_CONNECTION" == some "true" then info
      else
        match (dGet node "HOST").map strUpper,
              (dGet node "DBNAME").map (fun s => strUpper (stripChar '"' s)) with
        | some host, some dbname =>
          if host ≠ "" ∧ dbname ≠ "" then info ++ [(host, dbname, dGet node "USER")]
          else info
        | _, _ => info)
    [])

/-- The Python value of a collected triple, for the `child in ret`
membership test. -/
def pyTriple (t : DbTriple) : PyV :=
  .vtuple [.vstr t.1, .vstr t.2.1,
    match t.2.2 with
    | some u => .vstr u
    | none => .vnone]

/-- The `if child in ret` test of `TalendProject.get_database_info`
(line 229): Python `in` compares the child job name against the
accumulated `(host, database, user)` tuples with `==`. -/
def pyInTriples (child : String) (ret : List DbTriple) : Bool :=
  ret.any (fun t => PyV.peq (.vstr child) (pyTriple t))

/-- `TalendProject.get_database_info` (lines 223-239) with fuel, guard
included as written. -/
def TalendProject.get_database_infoP (p : TalendProject) :
    Nat → Option String → Bool → Except String (List DbTriple)
  | 0, _, _ => Except.error "RecursionError: maximum recursion depth exceeded"
  | fuel + 1, job, children =>
    match job with
    | some jn =>
      if jn ≠ "" then do
        let jb ← p.lookupJob jn
        let jbp ← jb.ensureParsed
        let ret ← jbp.get_database_info
        if children then
          jbp.children.foldlM
            (fun ret child =>
              if pyInTriples child ret then Except.ok ret
              else do
                let more ← p.get_database_infoP fuel (some child) true
                Except.ok (ret ++ more))
            ret
        else Except.ok ret
      else
        p.versions.foldlM
          (fun ret nv => do
            let jb ← p.lookupJob nv.1
            let info ← jb.get_database_info
            Except.ok (ret ++ info))
          []
    | none =>
      p.versions.foldlM
        (fun ret nv => do
          let jb ← p.lookupJob nv.1
          let info ← jb.get_database_info
          Except.ok (ret ++ info))
        []

/-- The same traversal with the (claimed-dead) guard removed: recursion
descends into every listed child unconditionally. -/
def TalendProject.get_database_infoU (p : TalendProject) :
    Nat → Option String → Bool → Except String (List DbTriple)
  | 0, _, _ => Except.error "RecursionError: maximum recursion depth exceeded"
  | fuel + 1, job, children =>
    match job with
    | some jn =>
      if jn ≠ "" then do
        let jb ← p.lookupJob jn
        let jbp ← jb.ensureParsed
        let ret ← jbp.get_database_info
        if children then
          jbp.children.foldlM
            (fun ret child => do
              let more ← p.get_database_infoU fuel (some child) true
              Except.ok (ret ++ more))
            ret
        else Except.ok ret
      else
        p.versions.foldlM
          (fun ret nv => do
            let jb ← p.lookupJob nv.1
            let info ← jb.get_database_info
            Except.ok (ret ++ info))
          []
    | none =>
      p.versions.foldlM
        (fun ret nv => do
          let jb ← p.lookupJob nv.1
          let info ← jb.get_database_info
          Except.ok (ret ++ info))
        []

/-! ### Merged context with Python reference semantics

`TalendProject.get_merged_context` (lines 205-220) copies *references*:
`ctx[context] = self[job].context[context]` aliases the job's own group
dictionary, and the later `ctx[context][param] = ...` writes through that
alias.  To capture this, group dictionaries live on an explicit heap of
cells addressed by their owning `(job name, group name)` pair, a job's
`context` maps group names to addresses, and the function returns the
name-to-address mapping it builds together with the updated heap.  Job
lookup is abbreviated to direct name resolution (the `LATEST`
indirection of `__getitem__` is modelled in `TalendProject.lookupJob`
and is irrelevant to the aliasing behaviour). -/

/-- Address of a context-group dictionary cell. -/
abbrev CtxAddr := String × String

/-- The heap of context-group dictionaries. -/
abbrev CtxHeap := List (CtxAddr × List (String × String))

/-- A job as seen by `get_merged_context`: its child list and its
context groups by address. -/
structure CtxJob where
  children : List String
  groups : List (String × CtxAddr)
deriving Repr, DecidableEq

/-- `TalendProject.get_merged_context` with reference semantics and
fuel. -/
def getMergedContext (reg : List (String × CtxJob)) :
    Nat → String → CtxHeap → Except String (List (String × CtxAddr) × CtxHeap)
  | 0, _, _ => Except.error "RecursionError: maximum recursion depth exceeded"
  | fuel + 1, job, heap => do
    let j ← dGetE reg job ("KeyError: " ++ job)
    let ctx0 := j.groups.foldl (fun c ga => dIns c ga.1 ga.2) []
    j.children.foldlM
      (fun (st : List (String × CtxAddr) × CtxHeap) child => do
        let (ctx, heap) := st
        let (cctx, heap) ← getMergedContext reg fuel child heap
        Except.ok (cctx.foldl
          (fun (st : List (String × CtxAddr) × CtxHeap) gca =>
            let (ctx, heap) := st
            match dGet ctx gca.1 with
            | some a =>
              let cparams := (dGet heap gca.2).getD []
              let heap := cparams.foldl
                (fun heap pv =>
                  let cur := (dGet heap a).getD []
                  if dHas cur pv.1 then heap else dIns heap a (dIns cur pv.1 pv.2))
                heap
              (ctx, heap)
            | none => (dIns ctx gca.1 gca.2, heap))
          (ctx, heap)))
      (ctx0, heap)

/-! ### Concrete example projects -/

/-- Shorthand for an `elementParameter` child with a name/value pair. -/
def subParam (n v : String) : XSub := ⟨"elementParameter", [("name", n), ("value", v)]⟩

/-- Run `parse` and keep the parsed job (the jobs below all parse
successfully, which the witness theorems check). -/
def parseOr (j : TalendJob) : TalendJob :=
  match j.parse with
  | Except.ok j' => j'
  | Except.error _ => j

/-- Document of job `A`: a single job-invocation node calling `B`. -/
def docA : List XElem :=
  [⟨"node", [("componentName", "tRunJob")],
    [subParam "UNIQUE_NAME" "tRunJob_1", subParam "PROCESS" "B"]⟩]

/-- Document of job `B`: empty. -/
def docB : List XElem := []

def jobA0 : TalendJob := mkJob "A" "process/A_1.item" (some 1) docA

def jobB0 : TalendJob := mkJob "B" "process/B_1.item" (some 1) docB

def jobA : TalendJob := parseOr jobA0

def jobB : TalendJob := parseOr jobB0

/-- Registry with exactly two jobs `A` (invoking `B` via a `tRunJob`
node) and `B`. -/
def pAB : TalendProject :=
  { versions := [("A", ⟨1, [(1, "process/A_1.item")]⟩), ("B", ⟨1, [(1, "process/B_1.item")]⟩)],
    jobs := [("process/A_1.item", jobA), ("process/B_1.item", jobB)] }

/-- Document of a job invoking `B` twice. -/
def docA2 : List XElem :=
  [⟨"node", [("componentName", "tRunJob")],
    [subParam "UNIQUE_NAME" "tRunJob_1", subParam "PROCESS" "B"]⟩,
   ⟨"node", [("componentName", "tRunJob")],
    [subParam "UNIQUE_NAME" "tRunJob_2", subParam "PROCESS" "B"]⟩]

/-- Document of a job with one node violating `DIE_ON_ERROR`. -/
def docB2 : List XElem :=
  [⟨"node", [("componentName", "tJava")],
    [subParam "UNIQUE_NAME" "tJava_1", subParam "DIE_ON_ERROR" "false"]⟩]

def jobA2 : TalendJob := parseOr (mkJob "A" "process/A_1.item" (some 1) docA2)

def jobB2 : TalendJob := parseOr (mkJob "B" "process/B_1.item" (some 1) docB2)

/-- Registry where `A`'s children list is `["B", "B"]` and `B` has one
`DIE_ON_ERROR` violation. -/
def pC2 : TalendProject :=
  { versions := [("A", ⟨1, [(1, "process/A_1.item")]⟩), ("B", ⟨1, [(1, "process/B_1.item")]⟩)],
    jobs := [("process/A_1.item", jobA2), ("process/B_1.item", jobB2)] }

/-! ### Further definitions used by the claim statements -/

/-- Two-level lookup in a review result: rule id, then job name. -/
def dGet2 (r : ReviewResult) (rule name : String) : Option (List Violation) :=
  (dGet r rule).bind (fun inner => dGet inner name)

/-- A top-level element that the parser discards entirely: a node-tagged
element whose collected parameter map contains `ACTIVATE` with the
literal value "false". -/
def isDisabledNodeElem (e : XElem) : Bool :=
  strContains e.tag "node" &&
    (match collectParams e with
     | Except.ok ps => dGet ps "ACTIVATE" == some "false"
     | Except.error _ => false)

/-- The violations the `DIE_ON_ERROR` uniform-parameter rule produces for
one stored node that reaches the rule loop. -/
def dieCore (node : String) (params : List (String × String)) : List Violation :=
  match dGet params "DIE_ON_ERROR" with
  | some v =>
    if v ≠ "true" then [⟨some node, none, fmtMsg "DIE_ON_ERROR" "true" v⟩] else []
  | none => []

/-- The violations the `DIE_ON_ERROR` uniform-parameter rule produces for
one stored node, including the (dead) disabled-node skip guard. -/
def dieBlock (node : String) (params : List (String × String)) : List Violation :=
  if dHas params "ACTIVATE" && dGet params "ACTIVATE" == some "false" then []
  else dieCore node params

/-- Well-formedness of a review result: rule keys are duplicate-free and
so are each rule's job-name keys (automatic for Python dicts). -/
def Rwf (r : ReviewResult) : Prop :=
  (dKeys r).Nodup ∧ ∀ ri ∈ r, (dKeys ri.2).Nodup

/-- Shape invariant of a single job's review run: every rule's inner
dictionary is the singleton `{job name: list}`. -/
def Inner (jname : String) (res : ReviewResult) : Prop :=
  ∀ ri ∈ res, ∃ l, ri.2 = [(jname, l)]

/-- The `LATEST` invariant of one version-registry entry: it is one of
the numeric keys and an upper bound of all of them. -/
def entryInv (e : VersionEntry) : Prop :=
  e.latest ∈ dKeys e.files ∧ ∀ w ∈ dKeys e.files, w ≤ e.latest

/-- Registry for the merged-context run: job `A` (group `G`, child `B`)
and job `B` (its own group `G`). -/
def ctxReg : List (String × CtxJob) :=
  [("A", ⟨["B"], [("G", ("A", "G"))]⟩), ("B", ⟨[], [("G", ("B", "G"))]⟩)]

/-- Initial heap: `A`'s group `G` holds `p=1`, `B`'s group `G` holds
`q=2`. -/
def ctxHeap0 : CtxHeap := [((("A", "G")), [("p", "1")]), ((("B", "G")), [("q", "2")])]

/-- Items of one job discovered in a non-sorted order (versions 2, 1, 3). -/
def itemsW : List (String × Rat × String) :=
  [("J", 2, "process/J_2.item"), ("J", 1, "process/J_1.item"), ("J", 3, "process/J_3.item")]

/-- The registry entry `itemsW` produces for `J`. -/
def entryW : VersionEntry :=
  ⟨3, [(2, "process/J_2.item"), (1, "process/J_1.item"), (3, "process/J_3.item")]⟩

/-- Document with one teradata node and no context group at all. -/
def docT : List XElem :=
  [⟨"node", [("componentName", "tTeradataRow")], [subParam "UNIQUE_NAME" "tTeradataRow_1"]⟩]

/-- A parsed teradata-using job with an empty context mapping. -/
def jobT : TalendJob := parseOr (mkJob "T" "process/T_1.item" (some 1) docT)

/-- Document with one disabled node and one active node. -/
def docW : List XElem :=
  [⟨"node", [("componentName", "tJava")],
    [subParam "UNIQUE_NAME" "tJava_disabled", subParam "ACTIVATE" "false",
     subParam "DIE_ON_ERROR" "false"]⟩,
   ⟨"node", [("componentName", "tJava")],
    [subParam "UNIQUE_NAME" "tJava_1", subParam "DIE_ON_ERROR" "false"]⟩]

/-- The unparsed job over `docW`. -/
def jobW0 : TalendJob := mkJob "W" "process/W_1.item" (some 1) docW

/-- The parsed job over `docW`. -/
def jobW1 : TalendJob := parseOr jobW0

/-! ### Lemmas about the dictionary operations -/

@[simp] theorem dGet_nil [DecidableEq κ] (k : κ) : dGet ([] : List (κ × β)) k = none := rfl

@[simp] theorem dGet_cons [DecidableEq κ] (a : κ) (b : β) (rest : List (κ × β)) (k : κ) :
    dGet ((a, b) :: rest) k = if a = k then some b else dGet rest k := rfl

@[simp] theorem dHas_nil [DecidableEq κ] (k : κ) : dHas ([] : List (κ × β)) k = false := rfl

@[simp] theorem dHas_cons [DecidableEq κ] (a : κ) (b : β) (rest : List (κ × β)) (k : κ) :
    dHas ((a, b) :: rest) k = (decide (a = k) || dHas rest k) := rfl

theorem dHas_iff_dGet [DecidableEq κ] (d : List (κ × β)) (k : κ) :
    dHas d k = true ↔ (dGet d k).isSome := by
  induction d with
  | nil => simp
  | cons hd tl ih =>
    obtain ⟨a, b⟩ := hd
    by_cases h : a = k <;> simp [h, ih]

theorem dGet_eq_none_of_not_dHas [DecidableEq κ] {d : List (κ × β)} {k : κ}
    (h : dHas d k = false) : dGet d k = none := by
  cases hg : dGet d k with
  | none => rfl
  | some v =>
    have := (dHas_iff_dGet d k).mpr (by simp [hg])
    rw [h] at this; cases this

theorem dHas_of_dGet_eq_some [DecidableEq κ] {d : List (κ × β)} {k : κ} {v : β}
    (h : dGet d k = some v) : dHas d k = true :=
  (dHas_iff_dGet d k).mpr (by simp [h])

@[simp] theorem dGet_dRep_self [DecidableEq κ] (d : List (κ × β)) (k : κ) (v : β)
    (h : dHas d k = true) : dGet (dRep d k v) k = some v := by
  induction d with
  | nil => simp at h
  | cons hd tl ih =>
    obtain ⟨a, b⟩ := hd
    by_cases hak : a = k
    · simp [dRep, hak]
    · simp [dRep, hak] at h ⊢
      exact ih h

theorem dGet_dRep_ne [DecidableEq κ] (d : List (κ × β)) (k k' : κ) (v : β)
    (h : k' ≠ k) : dGet (dRep d k v) k' = dGet d k' := by
  induction d with
  | nil => simp [dRep]
  | cons hd tl ih =>
    obtain ⟨a, b⟩ := hd
    by_cases hak : a = k
    · subst hak
      simp [dRep, Ne.symm h]
    · simp only [dRep, if_neg hak, dGet_cons]
      by_cases hak' : a = k' <;> simp [hak', ih]

theorem dGet_append_single_self [DecidableEq κ] (d : List (κ × β)) (k : κ) (v : β)
    (h : dHas d k = false) : dGet (d ++ [(k, v)]) k = some v := by
  induction d with
  | nil => simp
  | cons hd tl ih =>
    obtain ⟨a, b⟩ := hd
    simp only [dHas_cons, Bool.or_eq_false_iff, decide_eq_false_iff_not] at h
    simpa [h.1] using ih h.2

theorem dGet_append_single_ne [DecidableEq κ] (d : List (κ × β)) (k k' : κ) (v : β)
    (h : k' ≠ k) : dGet (d ++ [(k, v)]) k' = dGet d k' := by
  induction d with
  | nil => simp [Ne.symm h]
  | cons hd tl ih =>
    obtain ⟨a, b⟩ := hd
    by_cases hak' : a = k' <;> simp [hak', ih]

@[simp] theorem dGet_dIns_self [DecidableEq κ] (d : List (κ × β)) (k : κ) (v : β) :
    dGet (dIns d k v) k = some v := by
  unfold dIns
  by_cases h : dHas d k
  · simp [h]
  · have hf : dHas d k = false := by simpa using h
    simp [hf, dGet_append_single_self d k v hf]

theorem dGet_dIns_ne [DecidableEq κ] (d : List (κ × β)) (k k' : κ) (v : β)
    (h : k' ≠ k) : dGet (dIns d k v) k' = dGet d k' := by
  unfold dIns
  by_cases hh : dHas d k
  · simp [hh, dGet_dRep_ne d k k' v h]
  · simp [hh, dGet_append_single_ne d k k' v h]

theorem dKeys_dRep [DecidableEq κ] (d : List (κ × β)) (k : κ) (v : β)
    (h : dHas d k = true) : dKeys (dRep d k v) = dKeys d := by
  induction d with
  | nil => simp at h
  | cons hd tl ih =>
    obtain ⟨a, b⟩ := hd
    by_cases hak : a = k
    · simp [dRep, hak, dKeys]
    · simp [dRep, hak, dKeys] at *
      exact ih h

theorem dKeys_dIns_of_dHas [DecidableEq κ] (d : List (κ × β)) (k : κ) (v : β)
    (h : dHas d k = true) : dKeys (dIns d k v) = dKeys d := by
  unfold dIns; simp [h, dKeys_dRep d k v h]

theorem dKeys_dIns_of_not_dHas [DecidableEq κ] (d : List (κ × β)) (k : κ) (v : β)
    (h : dHas d k = false) : dKeys (dIns d k v) = dKeys d ++ [k] := by
  unfold dIns; simp [h, dKeys]

theorem dHas_iff_mem_dKeys [DecidableEq κ] (d : List (κ × β)) (k : κ) :
    dHas d k = true ↔ k ∈ dKeys d := by
  induction d with
  | nil => simp [dKeys]
  | cons hd tl ih =>
    obtain ⟨a, b⟩ := hd
    simp only [dHas_cons, Bool.or_eq_true, decide_eq_true_eq, dKeys, List.map_cons,
      List.mem_cons] at ih ⊢
    constructor
    · rintro (h | h)
      · exact Or.inl h.symm
      · exact Or.inr (ih.mp h)
    · rintro (h | h)
      · exact Or.inl h.symm
      · exact Or.inr (ih.mpr h)

theorem dKeys_dIns_nodup [DecidableEq κ] (d : List (κ × β)) (k : κ) (v : β)
    (h : (dKeys d).Nodup) : (dKeys (dIns d k v)).Nodup := by
  by_cases hh : dHas d k
  · rw [dKeys_dIns_of_dHas d k v hh]; exact h
  · rw [dKeys_dIns_of_not_dHas d k v (by simpa using hh)]
    have hk : k ∉ dKeys d := by
      intro hmem
      exact absurd ((dHas_iff_mem_dKeys d k).mpr hmem) (by simpa using hh)
    simp [List.nodup_append, h, hk]

/-! ### Generic lemmas about `Except` folds -/

@[simp] theorem exc_bind_ok (a : α) (f : α → Except ε β) :
    (Except.ok a >>= f) = f a := rfl

@[simp] theorem exc_bind_err (e : ε) (f : α → Except ε β) :
    ((Except.error e : Except ε α) >>= f) = Except.error e := rfl

theorem exc_bind_eq_ok {x : Except ε α} {g : α → Except ε β} {b : β} :
    (x >>= g) = Except.ok b ↔ ∃ a, x = Except.ok a ∧ g a = Except.ok b := by
  cases x <;> simp

theorem foldlM_cons_ok {f : α → β → Except ε α} {b : β} {l : List β} {a : α} {a' : α}
    (h : (b :: l).foldlM f a = Except.ok a') :
    ∃ mid, f a b = Except.ok mid ∧ l.foldlM f mid = Except.ok a' := by
  rw [List.foldlM_cons] at h
  exact exc_bind_eq_ok.mp h

/-- Invariant preservation through a successful `Except` fold. -/
theorem foldlM_preserve {P : α → Prop} {f : α → β → Except ε α} :
    ∀ (l : List β) (a a' : α), l.foldlM f a = Except.ok a' → P a →
      (∀ x b x', b ∈ l → f x b = Except.ok x' → P x → P x') → P a'
  | [], a, a', h, ha, _ => by
    simp only [List.foldlM_nil] at h
    cases h; exact ha
  | b :: l, a, a', h, ha, hf => by
    obtain ⟨mid, h1, h2⟩ := foldlM_cons_ok h
    exact foldlM_preserve l mid a' h2 (hf a b mid (by simp) h1 ha)
      (fun x c x' hc => hf x c x' (by simp [hc]))

/-- Invariant preservation through a pure fold. -/
theorem foldl_preserve {P : α → Prop} {f : α → β → α} :
    ∀ (l : List β) (a : α), P a → (∀ x b, b ∈ l → P x → P (f x b)) → P (l.foldl f a)
  | [], a, ha, _ => ha
  | b :: l, a, ha, hf =>
    foldl_preserve l (f a b) (hf a b (by simp) ha) (fun x c hc => hf x c (by simp [hc]))

/-- Fold congruence for functions that agree on the list's elements. -/
theorem foldlM_congr_mem {f g : α → β → Except ε α} :
    ∀ (l : List β) (a : α), (∀ x b, b ∈ l → f x b = g x b) →
      l.foldlM f a = l.foldlM g a
  | [], _, _ => rfl
  | b :: l, a, h => by
    rw [List.foldlM_cons, List.foldlM_cons, h a b (by simp)]
    cases g a b with
    | error e => rfl
    | ok mid => exact congrArg _ (funext fun _ => foldlM_congr_mem l _ (fun x c hc => h x c (by simp [hc])))

theorem dGet_mem [DecidableEq κ] {d : List (κ × β)} {k : κ} {v : β}
    (h : dGet d k = some v) : (k, v) ∈ d := by
  induction d with
  | nil => simp at h
  | cons hd tl ih =>
    obtain ⟨a, b⟩ := hd
    by_cases hak : a = k
    · subst hak
      simp at h
      simp [h]
    · simp [hak] at h
      simp [ih h]

theorem dGet_of_mem_nodup [DecidableEq κ] {d : List (κ × β)} {k : κ} {v : β}
    (hn : (dKeys d).Nodup) (h : (k, v) ∈ d) : dGet d k = some v := by
  induction d with
  | nil => simp at h
  | cons hd tl ih =>
    obtain ⟨a, b⟩ := hd
    simp only [dKeys, List.map_cons, List.nodup_cons] at hn
    rcases List.mem_cons.mp h with h1 | h1
    · cases h1; simp
    · have hak : a ≠ k := by
        intro he; subst he
        exact hn.1 (List.mem_map.mpr ⟨(a, v), h1, rfl⟩)
      simp [hak, ih hn.2 h1]

theorem mem_dIns [DecidableEq κ] {d : List (κ × β)} {k : κ} {v : β} {e : κ × β}
    (h : e ∈ dIns d k v) : e ∈ d ∨ e = (k, v) := by
  unfold dIns at h
  by_cases hh : dHas d k
  · simp only [hh, if_true] at h
    clear hh
    induction d with
    | nil => simp [dRep] at h
    | cons hd tl ih =>
      obtain ⟨a, b⟩ := hd
      by_cases hak : a = k
      · simp [dRep, hak] at h
        rcases h with h | h
        · exact Or.inr h
        · exact Or.inl (List.mem_cons_of_mem _ h)
      · simp only [dRep, if_neg hak, List.mem_cons] at h
        rcases h with h | h
        · exact Or.inl (by simp [h])
        · rcases ih h with h1 | h1
          · exact Or.inl (List.mem_cons_of_mem _ h1)
          · exact Or.inr h1
  · simp only [hh, if_false] at h
    rcases List.mem_append.mp h with h1 | h1
    · exact Or.inl h1
    · exact Or.inr (by simpa using h1)

theorem mem_dKeys_dIns_iff [DecidableEq κ] (d : List (κ × β)) (k : κ) (v : β) (w : κ) :
    w ∈ dKeys (dIns d k v) ↔ w ∈ dKeys d ∨ w = k := by
  by_cases hh : dHas d k
  · rw [dKeys_dIns_of_dHas d k v hh]
    constructor
    · exact Or.inl
    · rintro (h | h)
      · exact h
      · subst h; exact (dHas_iff_mem_dKeys d w).mp hh
  · rw [dKeys_dIns_of_not_dHas d k v (by simpa using hh)]
    simp


/-! ### Claim C1 -/

/-- C1: the claim states that `tree_view(None)` returns the forest rooted
at all master jobs, in particular `{"A": {"B": {}}}` for the two-job
registry `pAB`.  The code instead returns `{}` for a `None` root: the
guard `if not root in self.versions: return {}` always fires because
`None` is never a key of `versions`.  The master forest the claim
describes is exactly what the per-root branch and `get_master_jobs`
would produce, as the second and third conjuncts show. -/
theorem c1_tree_view_none_is_empty :
    pAB.tree_view 10 none = Except.ok (JTree.mk []) ∧
    pAB.tree_view 10 (some "A") =
      Except.ok (JTree.mk [("A", JTree.mk [("B", JTree.mk [])])]) ∧
    pAB.get_master_jobs = Except.ok ["A"] ∧
    JTree.mk ([] : List (String × JTree)) ≠
      JTree.mk [("A", JTree.mk [("B", JTree.mk [])])] := by
  refine ⟨rfl, rfl, rfl, ?_⟩
  intro h
  simpa [JTree.isEmptyT] using congrArg JTree.isEmptyT h

/-! ### Claim C3 -/

/-- C3: the claim states that `get_merged_context(J)` leaves every
reachable job's `context` mapping exactly as `parse()` produced it.  It
does not: `ctx[context] = self[job].context[context]` aliases the job's
own group dictionary and the merge then writes through the alias.  On
the two-job registry `ctxReg` (A has group G `{p: 1}` and child B, B has
group G `{q: 2}`), running `get_merged_context("A")` rewrites A's own
group cell from `{p: 1}` to `{p: 1, q: 2}`. -/
theorem c3_get_merged_context_mutates :
    getMergedContext ctxReg 10 "A" ctxHeap0 =
      Except.ok ([("G", ("A", "G"))],
        [((("A", "G")), [("p", "1"), ("q", "2")]), ((("B", "G")), [("q", "2")])]) ∧
    dGet ctxHeap0 ("A", "G") = some [("p", "1")] ∧
    ([("p", "1"), ("q", "2")] : List (String × String)) ≠ [("p", "1")] := by
  refine ⟨rfl, rfl, ?_⟩
  decide

/-! ### Claim C6 -/

/-- C6: parsing is idempotent and at most once — a successful `parse`
yields a job on which `parse` is the identity, the stream is read once
on a first parse, and a second invocation changes nothing (for an
already-parsed job `parse` returns it unchanged without reading). -/
theorem c6_parse_idempotent (j j' : TalendJob) (h : j.parse = Except.ok j') :
    j'.parse = Except.ok j' ∧ j'.parsed = true ∧
    (j.parsed = false → j'.streamReads = j.streamReads + 1) ∧
    (j.parsed = true → j' = j) := by
  unfold TalendJob.parse at h
  cases hp : j.parsed with
  | true =>
    rw [hp] at h
    simp only [if_true] at h
    obtain rfl : j = j' := Except.ok.inj h
    refine ⟨?_, hp, ?_, ?_⟩
    · unfold TalendJob.parse
      rw [hp]
      simp
    · intro hf
      simp at hf
    · intro _
      rfl
  | false =>
    rw [hp] at h
    simp only [Bool.false_eq_true, if_false] at h
    cases hfold : j.doc.foldlM parseElem (parseInit j) with
    | error e => rw [hfold] at h; cases h
    | ok acc =>
      rw [hfold] at h
      have hj : j' = { j with
          nodes := acc.nodes, connections := acc.connections, context := acc.context,
          children := acc.children, tables := acc.tables,
          use_teradata := acc.use_teradata, use_files := acc.use_files,
          parsed := true, streamReads := j.streamReads + 1 } := (Except.ok.inj h).symm
      subst hj
      refine ⟨?_, rfl, ?_, ?_⟩
      · unfold TalendJob.parse
        simp
      · intro _
        rfl
      · intro ht
        simp at ht

/-- C6 witness: the concrete job `A` parses successfully and the theorem
applies to it. -/
theorem c6_witness :
    jobA0.parse = Except.ok jobA ∧
    (jobA.parse = Except.ok jobA ∧ jobA.parsed = true ∧
      (jobA0.parsed = false → jobA.streamReads = jobA0.streamReads + 1) ∧
      (jobA0.parsed = true → jobA = jobA0)) :=
  ⟨by decide, c6_parse_idempotent jobA0 jobA (by decide)⟩

/-! ### Claim C10 -/

/-- C10: for every parsed job with the database-vendor flag true and an
empty `context` mapping, `review()` fails with an error: the loop
binding the context-key-set variable iterates zero times and the
variable is read unbound. -/
theorem c10_review_errors_without_context (j : TalendJob) (h1 : j.parsed = true)
    (h2 : truthy j.use_teradata = true) (h3 : j.context = []) :
    ∃ e, reviewE j = Except.error e := by
  unfold reviewE reviewWith TalendJob.ensureParsed
  rw [h1]
  simp only [if_true, exc_bind_ok]
  cases hfold : j.nodes.foldlM (fun res np => reviewNode j res np.1 np.2) (initResults j.name) with
  | error e => exact ⟨e, by simp [hfold]⟩
  | ok res1 =>
    refine ⟨"UnboundLocalError: local variable ctx_keys referenced before assignment", ?_⟩
    simp [hfold, contextCheck, h2, h3]

/-- C10 witness: the parsed teradata job `jobT` has an empty context and
its review fails. -/
theorem c10_witness : ∃ e, reviewE jobT = Except.error e :=
  c10_review_errors_without_context jobT (by decide) (by decide) (by decide)

/-! ### Claim C4 -/

/-- The fold step preserves the `LATEST` invariant of every registry
entry. -/
theorem loadStep_inv (vs : List (String × VersionEntry)) (it : String × Rat × String)
    (hv : ∀ n e, dGet vs n = some e → entryInv e) :
    ∀ n e, dGet (loadStep vs it) n = some e → entryInv e := by
  intro n e h
  unfold loadStep at h
  cases hg : dGet vs it.1 with
  | some e0 =>
    rw [hg] at h
    by_cases hn : n = it.1
    · subst hn
      rw [dGet_dIns_self] at h
      have h0 := hv _ _ hg
      obtain rfl :
          (⟨if it.2.1 > e0.latest then it.2.1 else e0.latest,
            dIns e0.files it.2.1 it.2.2⟩ : VersionEntry) = e := Option.some.inj h
      constructor
      · by_cases hgt : it.2.1 > e0.latest
        · simp only [if_pos hgt]
          exact (mem_dKeys_dIns_iff _ _ _ _).mpr (Or.inr rfl)
        · simp only [if_neg hgt]
          exact (mem_dKeys_dIns_iff _ _ _ _).mpr (Or.inl h0.1)
      · intro w hw
        rcases (mem_dKeys_dIns_iff _ _ _ _).mp hw with hw | hw
        · by_cases hgt : it.2.1 > e0.latest
          · simp only [if_pos hgt]
            exact le_trans (h0.2 w hw) (le_of_lt hgt)
          · simp only [if_neg hgt]
            exact h0.2 w hw
        · subst hw
          by_cases hgt : it.2.1 > e0.latest
          · simp [if_pos hgt]
          · simp only [if_neg hgt]
            exact not_lt.mp hgt
    · rw [dGet_dIns_ne _ _ _ _ hn] at h
      exact hv _ _ h
  | none =>
    rw [hg] at h
    by_cases hn : n = it.1
    · subst hn
      rw [dGet_dIns_self] at h
      obtain rfl : (⟨it.2.1, [(it.2.1, it.2.2)]⟩ : VersionEntry) = e := Option.some.inj h
      exact ⟨by simp [dKeys], by simp [dKeys]⟩
    · rw [dGet_dIns_ne _ _ _ _ hn] at h
      exact hv _ _ h

/-- The invariant holds for every entry of the registry built from any
item list, starting from any accumulator that satisfies it. -/
theorem loadVersions_aux :
    ∀ (items : List (String × Rat × String)) (acc : List (String × VersionEntry)),
      (∀ n e, dGet acc n = some e → entryInv e) →
      ∀ n e, dGet (items.foldl loadStep acc) n = some e → entryInv e
  | [], _, hv => hv
  | it :: rest, acc, hv => by
    simp only [List.foldl_cons]
    exact loadVersions_aux rest _ (loadStep_inv acc it hv)

/-- C4: after project construction, for every job name with at least one
stored version (i.e. whose registry entry exists), the `LATEST` entry
equals the maximum of the numeric version keys — it is one of the keys
and an upper bound of all of them — for every discovery order, since the
item list is universally quantified. -/
theorem c4_latest_is_max (items : List (String × Rat × String)) (name : String)
    (e : VersionEntry) (h : dGet (loadVersions items) name = some e) :
    e.latest ∈ dKeys e.files ∧ ∀ w ∈ dKeys e.files, w ≤ e.latest :=
  loadVersions_aux items [] (by intro n e h; simp at h) name e h

/-- C4 witness: versions of job `J` discovered in the non-sorted order
2, 1, 3 produce `LATEST = 3`. -/
theorem c4_witness :
    dGet (loadVersions itemsW) "J" = some entryW ∧
    (entryW.latest ∈ dKeys entryW.files ∧ ∀ w ∈ dKeys entryW.files, w ≤ entryW.latest) :=
  ⟨by decide, c4_latest_is_max itemsW "J" entryW (by decide)⟩

/-! ### Claim C9 -/

/-- C9: the cycle-avoidance test of `get_database_info` compares the
child job name (a string) against accumulated `(host, database, user)`
tuples, which Python `==` never equates, so the membership test is false
for every child and every accumulated list, and the traversal equals the
variant with the guard removed: the recursion descends into every listed
child unconditionally. -/
theorem c9_db_guard_dead :
    (∀ (child : String) (ret : List DbTriple), pyInTriples child ret = false) ∧
    (∀ (fuel : Nat) (p : TalendProject) (job : Option String) (children : Bool),
      p.get_database_infoP fuel job children = p.get_database_infoU fuel job children) := by
  have hone : ∀ (child : String) (t : DbTriple),
      PyV.peq (PyV.vstr child) (pyTriple t) = false := by
    intro child t
    rw [PyV.peq.eq_def]
    rfl
  have hmem : ∀ (child : String) (ret : List DbTriple), pyInTriples child ret = false := by
    intro child ret
    unfold pyInTriples
    induction ret with
    | nil => rfl
    | cons t rest ih => simp [List.any_cons, hone, ih]
  refine ⟨hmem, ?_⟩
  intro fuel
  induction fuel with
  | zero => intro p job children; rfl
  | succ n ih =>
    intro p job children
    cases job with
    | none => rfl
    | some jn =>
      simp only [TalendProject.get_database_infoP, TalendProject.get_database_infoU]
      by_cases hjn : jn = ""
      · simp [hjn]
      · rw [if_pos hjn, if_pos hjn]
        cases hjb : p.lookupJob jn with
        | error e => simp [hjb]
        | ok jb =>
          simp only [hjb, exc_bind_ok]
          cases hjp : jb.ensureParsed with
          | error e => simp
          | ok jbp =>
            simp only [exc_bind_ok]
            cases hdi : jbp.get_database_info with
            | error e => simp
            | ok ret0 =>
              simp only [exc_bind_ok]
              cases children with
              | false => rfl
              | true =>
                simp only [if_true]
                apply foldlM_congr_mem
                intro x b _
                rw [hmem b x]
                simp only [Bool.false_eq_true, if_false]
                rw [ih p (some b) true]

/-! ### Claim C5 -/

/-- A connection element never changes the stored nodes. -/
theorem parseConnElem_nodes {acc acc2 : ParseAcc} {e : XElem}
    (h : parseConnElem acc e = Except.ok acc2) : acc2.nodes = acc.nodes := by
  unfold parseConnElem at h
  rcases exc_bind_eq_ok.mp h with ⟨ctype, h1, h2⟩
  rcases exc_bind_eq_ok.mp h2 with ⟨st, h3, h4⟩
  split at h4 <;> cases h4 <;> rfl

/-- A context element never changes the stored nodes. -/
theorem parseCtxElem_nodes {acc acc2 : ParseAcc} {e : XElem}
    (h : parseCtxElem acc e = Except.ok acc2) : acc2.nodes = acc.nodes := by
  unfold parseCtxElem at h
  rcases exc_bind_eq_ok.mp h with ⟨cname, h1, h2⟩
  rcases exc_bind_eq_ok.mp h2 with ⟨params, h3, h4⟩
  cases h4
  rfl

/-- The usage-flag update never changes the stored nodes. -/
theorem nodeFlagsUpdate_nodes (acc : ParseAcc) (comp : String) :
    (nodeFlagsUpdate acc comp).nodes = acc.nodes := by
  unfold nodeFlagsUpdate
  split
  · dsimp only
    split <;> rfl
  · dsimp only
    split <;> rfl

/-- The child-recording update never changes the stored nodes. -/
theorem nodeChildUpdate_nodes {acc acc2 : ParseAcc} {params : List (String × String)}
    {comp : String} (h : nodeChildUpdate acc params comp = Except.ok acc2) :
    acc2.nodes = acc.nodes := by
  unfold nodeChildUpdate at h
  split at h
  · rcases exc_bind_eq_ok.mp h with ⟨proc, h1, h2⟩
    cases h2
    rfl
  · cases h
    rfl

/-- The table-recording update never changes the stored nodes. -/
theorem nodeTableUpdate_nodes (acc : ParseAcc) (params : List (String × String)) :
    (nodeTableUpdate acc params).nodes = acc.nodes := by
  unfold nodeTableUpdate
  split
  · split <;> rfl
  · rfl

/-- A disabled node element leaves the parse accumulator untouched. -/
theorem parseElem_disabled {acc : ParseAcc} {e : XElem}
    (h : isDisabledNodeElem e = true) : parseElem acc e = Except.ok acc := by
  unfold isDisabledNodeElem at h
  rw [Bool.and_eq_true] at h
  obtain ⟨ht, hm⟩ := h
  unfold parseElem
  rw [if_pos ht]
  unfold parseNodeElem
  cases hcp : collectParams e with
  | error err =>
    rw [hcp] at hm
    cases hm
  | ok ps =>
    rw [hcp] at hm
    have hm' : (dGet ps "ACTIVATE" == some "false") = true := hm
    have hget : dGet ps "ACTIVATE" = some "false" := by simpa using hm'
    have hhas := dHas_of_dGet_eq_some hget
    simp only [hcp, exc_bind_ok]
    rw [if_pos (by simp [hhas, hm'])]

/-- Folding the parser over the filtered document yields the same
accumulator as over the original document. -/
theorem fold_filter :
    ∀ (doc : List XElem) (acc acc2 : ParseAcc),
      doc.foldlM parseElem acc = Except.ok acc2 →
      (doc.filter (fun e => !isDisabledNodeElem e)).foldlM parseElem acc = Except.ok acc2
  | [], acc, acc2, h => by simpa using h
  | e :: rest, acc, acc2, h => by
    obtain ⟨mid, h1, h2⟩ := foldlM_cons_ok h
    cases hd : isDisabledNodeElem e with
    | true =>
      have hm : mid = acc := by
        rw [parseElem_disabled hd] at h1
        exact (Except.ok.inj h1).symm
      subst hm
      simp only [List.filter_cons, hd, Bool.not_true, Bool.false_eq_true, if_false]
      exact fold_filter rest mid acc2 h2
    | false =>
      simp only [List.filter_cons, hd, Bool.not_false, if_true]
      rw [List.foldlM_cons, h1]
      simp only [exc_bind_ok]
      exact fold_filter rest mid acc2 h2

/-- Processing any element preserves the invariant that no stored node
maps `ACTIVATE` to "false". -/
theorem parseElem_no_disabled {acc acc2 : ParseAcc} {e : XElem}
    (h : parseElem acc e = Except.ok acc2)
    (hP : ∀ np ∈ acc.nodes, dGet np.2 "ACTIVATE" ≠ some "false") :
    ∀ np ∈ acc2.nodes, dGet np.2 "ACTIVATE" ≠ some "false" := by
  unfold parseElem at h
  split at h
  · -- node element
    unfold parseNodeElem at h
    rcases exc_bind_eq_ok.mp h with ⟨params, hcp, h2⟩
    by_cases hg : (dHas params "ACTIVATE" && (dGet params "ACTIVATE" == some "false")) = true
    · rw [if_pos hg] at h2
      cases h2
      exact hP
    · rw [if_neg hg] at h2
      rcases exc_bind_eq_ok.mp h2 with ⟨comp, hcomp, h3⟩
      rcases exc_bind_eq_ok.mp h3 with ⟨uniq, huniq, h4⟩
      rcases exc_bind_eq_ok.mp h4 with ⟨acc3, hchild, h5⟩
      cases h5
      intro np hnp
      rw [nodeTableUpdate_nodes, nodeChildUpdate_nodes hchild] at hnp
      have hnp' : np ∈ dIns (nodeFlagsUpdate acc comp).nodes uniq
          (dIns params "_componentName" comp) := hnp
      rw [nodeFlagsUpdate_nodes] at hnp'
      rcases mem_dIns hnp' with hold | hnew
      · exact hP np hold
      · rw [hnew]
        show dGet (dIns params "_componentName" comp) "ACTIVATE" ≠ some "false"
        rw [dGet_dIns_ne _ _ _ _ (by decide)]
        intro heq
        exact hg (by simp [dHas_of_dGet_eq_some heq, heq])
  · split at h
    · intro np hnp
      rw [parseConnElem_nodes h] at hnp
      exact hP np hnp
    · split at h
      · intro np hnp
        rw [parseCtxElem_nodes h] at hnp
        exact hP np hnp
      · cases h
        exact hP

/-- A successful element fold determines the result of `parse` on an
unparsed job. -/
theorem parse_eq_of_fold (j2 : TalendJob) (hp : j2.parsed = false) (acc : ParseAcc)
    (hf : List.foldlM parseElem (parseInit j2) j2.doc = Except.ok acc) :
    j2.parse = Except.ok { j2 with
      nodes := acc.nodes, connections := acc.connections, context := acc.context,
      children := acc.children, tables := acc.tables,
      use_teradata := acc.use_teradata, use_files := acc.use_files,
      parsed := true, streamReads := j2.streamReads + 1 } := by
  unfold TalendJob.parse
  rw [hp]
  simp only [Bool.false_eq_true, if_false]
  rw [hf]

/-- On a parsed job none of whose stored nodes maps `ACTIVATE` to
"false", the review pass with the disabled-node check equals the review
pass without it: the skip branch is dead code. -/
theorem review_no_skip_eq (j : TalendJob) (hparsed : j.parsed = true)
    (hnodes : ∀ np ∈ j.nodes, dGet np.2 "ACTIVATE" ≠ some "false") :
    reviewE j = reviewNoSkipE j := by
  unfold reviewE reviewNoSkipE reviewWith TalendJob.ensureParsed
  rw [hparsed]
  simp only [if_true, exc_bind_ok]
  rw [foldlM_congr_mem j.nodes (initResults j.name) ?_]
  intro x b hb
  unfold reviewNode
  have hfalse : (dGet b.2 "ACTIVATE" == some "false") = false :=
    beq_eq_false_iff_ne.mpr (hnodes b hb)
  rw [if_neg (by simp [hfalse])]

/-- C5: a node element whose collected parameter map has
`ACTIVATE="false"` is invisible: parsing a fresh job over the document
with such elements removed yields the same nodes, connections, context,
children, tables and usage flags (first conjunct, which also covers the
derived-flag and violation-list claims since every later pass reads only
these fields); no stored node maps `ACTIVATE` to "false" (second
conjunct); and consequently the disabled-node skip branch inside
`review` never fires — review with the check equals review without it
(third conjunct). -/
theorem c5_disabled_invisible (j j' : TalendJob) (hp : j.parsed = false) (hn : j.nodes = [])
    (h : j.parse = Except.ok j') :
    ({j with doc := j.doc.filter (fun e => !isDisabledNodeElem e)}).parse =
      Except.ok {j' with doc := j.doc.filter (fun e => !isDisabledNodeElem e)} ∧
    (∀ np ∈ j'.nodes, dGet np.2 "ACTIVATE" ≠ some "false") ∧
    reviewE j' = reviewNoSkipE j' := by
  unfold TalendJob.parse at h
  rw [hp] at h
  simp only [Bool.false_eq_true, if_false] at h
  cases hfold : j.doc.foldlM parseElem (parseInit j) with
  | error e => rw [hfold] at h; cases h
  | ok acc =>
    rw [hfold] at h
    have hj : j' = { j with
        nodes := acc.nodes, connections := acc.connections, context := acc.context,
        children := acc.children, tables := acc.tables,
        use_teradata := acc.use_teradata, use_files := acc.use_files,
        parsed := true, streamReads := j.streamReads + 1 } := (Except.ok.inj h).symm
    have hacc : ∀ np ∈ acc.nodes, dGet np.2 "ACTIVATE" ≠ some "false" := by
      refine foldlM_preserve (P := fun a => ∀ np ∈ a.nodes, dGet np.2 "ACTIVATE" ≠ some "false")
        j.doc (parseInit j) acc hfold ?_ ?_
      · intro np hnp
        have hnp' : np ∈ j.nodes := hnp
        rw [hn] at hnp'
        cases hnp'
      · intro x b x' _ hx hPx
        exact parseElem_no_disabled hx hPx
    subst hj
    refine ⟨?_, fun np hnp => hacc np hnp, ?_⟩
    · exact parse_eq_of_fold {j with doc := j.doc.filter (fun e => !isDisabledNodeElem e)}
        hp acc (fold_filter j.doc (parseInit j) acc hfold)
    · exact review_no_skip_eq _ rfl (fun np hnp => hacc np hnp)

/-- C5 witness: the job over `docW` (one disabled node, one active node)
parses successfully and the theorem applies to it. -/
theorem c5_witness :
    jobW0.parse = Except.ok jobW1 ∧
    (({jobW0 with doc := jobW0.doc.filter (fun e => !isDisabledNodeElem e)}).parse =
        Except.ok {jobW1 with doc := jobW0.doc.filter (fun e => !isDisabledNodeElem e)} ∧
      (∀ np ∈ jobW1.nodes, dGet np.2 "ACTIVATE" ≠ some "false") ∧
      reviewE jobW1 = reviewNoSkipE jobW1) :=
  ⟨by decide, c5_disabled_invisible jobW0 jobW1 (by decide) (by decide) (by decide)⟩

/-! ### Claim C7 -/

/-- Marking children non-master: looking up any name after the fold
yields `false` exactly for the marked names. -/
theorem markFold_dGet (cs : List String) (acc : List (String × Bool)) (x : String) :
    dGet (cs.foldl (fun acc c => dIns acc c false) acc) x =
      if x ∈ cs then some false else dGet acc x := by
  induction cs generalizing acc with
  | nil => simp
  | cons c rest ih =>
    simp only [List.foldl_cons]
    rw [ih]
    by_cases hx : x ∈ rest
    · simp [hx]
    · by_cases hxc : x = c
      · subst hxc
        simp [hx, dGet_dIns_self]
      · simp [hx, hxc, dGet_dIns_ne _ _ _ _ hxc]

/-- The initial masters dictionary maps exactly the registry names to
`true`. -/
theorem initMasters_dGet (vs : List (String × VersionEntry)) (x : String) :
    dGet (vs.map (fun nv => (nv.1, true))) x =
      if x ∈ dKeys vs then some true else none := by
  induction vs with
  | nil => simp [dKeys]
  | cons nv rest ih =>
    obtain ⟨n, e⟩ := nv
    by_cases hnx : n = x
    · subst hnx
      simp [dKeys]
    · simp only [List.map_cons, dGet_cons, if_neg hnx, ih, dKeys, List.mem_cons]
      by_cases hx : x ∈ List.map Prod.fst rest
      · simp [dKeys] at hx ⊢
        simp [hx]
      · simp [dKeys] at hx ⊢
        simp [hx, Ne.symm hnx]

/-- Characterization of the marking pass of `get_master_jobs`: after the
fold, a name resolves to its initial value if no processed job lists it
as a child, and to `false` if some processed job does. -/
theorem mastersFold_char (p : TalendProject) :
    ∀ (vs : List (String × VersionEntry)) (acc masters : List (String × Bool)),
      (vs.foldlM (fun acc nv => do
          let j ← p.lookupParsed nv.1
          Except.ok (j.children.foldl (fun acc c => dIns acc c false) acc)) acc)
        = Except.ok masters →
      ∀ x, (dGet masters x = dGet acc x ∧
              ∀ m ∈ vs, ∀ jm, p.lookupParsed m.1 = Except.ok jm → x ∉ jm.children) ∨
           (dGet masters x = some false ∧
              ∃ m ∈ vs, ∃ jm, p.lookupParsed m.1 = Except.ok jm ∧ x ∈ jm.children)
  | [], acc, masters, h => by
    simp only [List.foldlM_nil] at h
    cases h
    intro x
    exact Or.inl ⟨rfl, by simp⟩
  | nv :: rest, acc, masters, h => by
    obtain ⟨mid, h1, h2⟩ := foldlM_cons_ok h
    rcases exc_bind_eq_ok.mp h1 with ⟨j0, hl, h1b⟩
    cases h1b
    intro x
    rcases mastersFold_char p rest _ masters h2 x with ⟨heq, hall⟩ | ⟨hf, m, hm, jm, hjm, hx⟩
    · by_cases hxc : x ∈ j0.children
      · exact Or.inr ⟨by rw [heq, markFold_dGet]; simp [hxc], nv, by simp, j0, hl, hxc⟩
      · refine Or.inl ⟨by rw [heq, markFold_dGet]; simp [hxc], ?_⟩
        intro m hm jm hjm
        rcases List.mem_cons.mp hm with rfl | hm'
        · rw [hl] at hjm
          obtain rfl := Except.ok.inj hjm
          exact hxc
        · exact hall m hm' jm hjm
    · exact Or.inr ⟨hf, m, List.mem_cons_of_mem _ hm, jm, hjm, hx⟩

/-- C7: `get_master_jobs()` returns exactly the registry names that
never occur in any registry job's children list — membership is
determined purely by direct reference (a universally quantified
non-membership over all looked-up jobs), not by reachability. -/
theorem c7_master_jobs (p : TalendProject) (hn : (dKeys p.versions).Nodup)
    (l : List String) (h : p.get_master_jobs = Except.ok l) :
    ∀ n, n ∈ l ↔ (n ∈ dKeys p.versions ∧
      ∀ m ∈ dKeys p.versions, ∀ jm, p.lookupParsed m = Except.ok jm → n ∉ jm.children) := by
  unfold TalendProject.get_master_jobs at h
  rcases exc_bind_eq_ok.mp h with ⟨masters, hfold, hret⟩
  obtain rfl := Except.ok.inj hret
  have hinitkeys : dKeys (p.versions.map (fun nv => (nv.1, true))) = dKeys p.versions := by
    simp [dKeys, List.map_map]
  have hkn : (dKeys masters).Nodup := by
    refine foldlM_preserve (P := fun a => (dKeys a).Nodup) p.versions _ masters hfold ?_ ?_
    · show (dKeys (p.versions.map (fun nv => (nv.1, true)))).Nodup
      rw [hinitkeys]
      exact hn
    · intro x b x' _ hx hP
      rcases exc_bind_eq_ok.mp hx with ⟨j0, hl0, hx2⟩
      cases hx2
      exact foldl_preserve j0.children x hP (fun a c _ ha => dKeys_dIns_nodup a c false ha)
  have hchar := mastersFold_char p p.versions _ masters hfold
  intro n
  constructor
  · intro hmem
    rcases List.mem_map.mp hmem with ⟨pr, hfm, hfst⟩
    have hmm := List.mem_filter.mp hfm
    have hpr : pr = (n, true) := Prod.ext hfst (by simpa using hmm.2)
    have hmem2 : (n, true) ∈ masters := hpr ▸ hmm.1
    have hget : dGet masters n = some true := dGet_of_mem_nodup hkn hmem2
    rcases hchar n with ⟨heq, hall⟩ | ⟨hf, _⟩
    · rw [hget, initMasters_dGet] at heq
      constructor
      · by_cases hk : n ∈ dKeys p.versions
        · exact hk
        · rw [if_neg hk] at heq
          cases heq
      · intro m hm jm hjm
        rcases List.mem_map.mp hm with ⟨mv, hmv, rfl⟩
        exact hall mv hmv jm hjm
    · rw [hget] at hf
      cases hf
  · rintro ⟨hk, hall⟩
    rcases hchar n with ⟨heq, _⟩ | ⟨_, m, hm, jm, hjm, hx⟩
    · rw [initMasters_dGet, if_pos hk] at heq
      have hmem : (n, true) ∈ masters := dGet_mem heq
      exact List.mem_map.mpr ⟨(n, true), List.mem_filter.mpr ⟨hmem, by simp⟩, rfl⟩
    · exact absurd hx (hall m.1 (List.mem_map.mpr ⟨m, hm, rfl⟩) jm hjm)

/-- C7 witness: on the two-job registry, `A` is a master and the
characterization instantiates at it. -/
theorem c7_witness :
    "A" ∈ ["A"] ↔ ("A" ∈ dKeys pAB.versions ∧
      ∀ m ∈ dKeys pAB.versions, ∀ jm, pAB.lookupParsed m = Except.ok jm →
        "A" ∉ jm.children) :=
  c7_master_jobs pAB (by decide) ["A"] (by decide) "A"

/-! ### Claim C8 -/

/-- Appending a violation under one rule id leaves every other rule id's
entry unchanged. -/
theorem appendViol_other {res : ReviewResult} {rule nm : String} {v : Violation}
    {q : String} (hne : q ≠ rule) :
    dGet (appendViol res rule nm v) q = dGet res q := by
  unfold appendViol
  cases dGet res rule with
  | none => rfl
  | some inner =>
    dsimp only
    cases dGet inner nm with
    | none => rfl
    | some l => exact dGet_dIns_ne _ _ _ _ hne

/-- Appending a violation under a rule id whose entry is the singleton
`{name: l}` extends that list. -/
theorem appendViol_self {res : ReviewResult} {rule nm : String} {v : Violation}
    {l : List Violation} (hres : dGet res rule = some [(nm, l)]) :
    dGet (appendViol res rule nm v) rule = some [(nm, l ++ [v])] := by
  unfold appendViol
  rw [hres]
  dsimp only
  have hx : dGet [(nm, l)] nm = some l := by simp
  rw [hx]
  dsimp only
  rw [dGet_dIns_self]
  have hy : dIns [(nm, l)] nm (l ++ [v]) = [(nm, l ++ [v])] := by
    simp [dIns, dRep, dHas]
  rw [hy]

/-- `appendViol` never changes the rule-id key list. -/
theorem appendViol_keys (res : ReviewResult) (rule nm : String) (v : Violation) :
    dKeys (appendViol res rule nm v) = dKeys res := by
  unfold appendViol
  cases hg : dGet res rule with
  | none => rfl
  | some inner =>
    dsimp only
    cases dGet inner nm with
    | none => rfl
    | some l => exact dKeys_dIns_of_dHas _ _ _ (dHas_of_dGet_eq_some hg)

/-- A parameter loop over a table that does not contain rule `q` leaves
`q`'s entry unchanged. -/
theorem paramLoop_other {table : List (String × String)} {jname : String}
    {node : String} {params : List (String × String)} {q : String}
    (hq : ∀ pe ∈ table, pe.1 ≠ q) (res : ReviewResult) :
    dGet (paramLoop table jname res node params) q = dGet res q := by
  induction table generalizing res with
  | nil => rfl
  | cons pe rest ih =>
    simp only [paramLoop, List.foldl_cons]
    rw [show List.foldl _ _ rest = paramLoop rest jname
      (match dGet params pe.1 with
       | some v =>
         if v ≠ pe.2 then appendViol res pe.1 jname ⟨some node, none, fmtMsg pe.1 pe.2 v⟩
         else res
       | none => res) node params from rfl]
    rw [ih (fun x hx => hq x (List.mem_cons_of_mem _ hx))]
    cases dGet params pe.1 with
    | none => rfl
    | some v =>
      by_cases hv : v ≠ pe.2
      · simp only [if_pos hv]
        exact appendViol_other (Ne.symm (hq pe (by simp)))
      · simp only [if_neg hv]

/-- A parameter loop never changes the rule-id key list. -/
theorem paramLoop_keys (table : List (String × String)) (jname : String)
    (res : ReviewResult) (node : String) (params : List (String × String)) :
    dKeys (paramLoop table jname res node params) = dKeys res := by
  unfold paramLoop
  refine foldl_preserve (P := fun x => dKeys x = dKeys res) table res rfl ?_
  intro x pe _ hx
  cases dGet params pe.1 with
  | none => exact hx
  | some v =>
    by_cases hv : v ≠ pe.2
    · simp only [if_pos hv]
      rw [appendViol_keys]
      exact hx
    · simp only [if_neg hv]
      exact hx

/-- The vendor-credential check leaves the `DIE_ON_ERROR` entry and the
key list unchanged. -/
theorem edwCheck_pres {j : TalendJob} {res res' : ReviewResult} {node : String}
    {params : List (String × String)} (h : edwCheck j res node params = Except.ok res') :
    dGet res' "DIE_ON_ERROR" = dGet res "DIE_ON_ERROR" ∧ dKeys res' = dKeys res := by
  unfold edwCheck at h
  split at h
  · rcases exc_bind_eq_ok.mp h with ⟨comp, hcomp, h2⟩
    split at h2
    · refine foldlM_preserve
        (P := fun x => dGet x "DIE_ON_ERROR" = dGet res "DIE_ON_ERROR" ∧ dKeys x = dKeys res)
        edw_params res res' h2 ⟨rfl, rfl⟩ ?_
      intro x pa x' hpa hx hP
      have hne : pa.1 ≠ "DIE_ON_ERROR" := by
        fin_cases hpa <;> decide
      cases hv : dGet params pa.1 with
      | none =>
        rw [hv] at hx
        cases hx
        exact hP
      | some v =>
        rw [hv] at hx
        dsimp only at hx
        by_cases hcv : (!pa.2.contains v) = true
        · rw [if_pos hcv] at hx
          rcases exc_bind_eq_ok.mp hx with ⟨ty, hty, hx2⟩
          cases hx2
          rw [appendViol_other (Ne.symm hne), appendViol_keys]
          exact hP
        · rw [if_neg hcv] at hx
          cases hx
          exact hP
    · cases h2
      exact ⟨rfl, rfl⟩
  · cases h
    exact ⟨rfl, rfl⟩

/-- The file-parameter check leaves the `DIE_ON_ERROR` entry and the key
list unchanged. -/
theorem fileCheck_pres (j : TalendJob) (res : ReviewResult) (node : String)
    (params : List (String × String)) :
    dGet (fileCheck j res node params) "DIE_ON_ERROR" = dGet res "DIE_ON_ERROR" ∧
    dKeys (fileCheck j res node params) = dKeys res := by
  unfold fileCheck
  split
  · constructor
    · refine paramLoop_other ?_ res
      intro pe hpe
      fin_cases hpe <;> decide
    · exact paramLoop_keys _ _ _ _ _
  · exact ⟨rfl, rfl⟩

/-- The context-completeness check leaves the `DIE_ON_ERROR` entry and
the key list unchanged. -/
theorem contextCheck_pres {j : TalendJob} {res res' : ReviewResult}
    (h : contextCheck j res = Except.ok res') :
    dGet res' "DIE_ON_ERROR" = dGet res "DIE_ON_ERROR" ∧ dKeys res' = dKeys res := by
  unfold contextCheck at h
  split at h
  · split at h
    · cases h
    · cases h
      refine foldl_preserve
        (P := fun x => dGet x "DIE_ON_ERROR" = dGet res "DIE_ON_ERROR" ∧ dKeys x = dKeys res)
        edw_context res ⟨rfl, rfl⟩ ?_
      intro x k _ hx
      split
      · exact hx
      · rw [appendViol_other (by decide), appendViol_keys]
        exact hx
  · cases h
    exact ⟨rfl, rfl⟩

/-- The deprecated-trigger check leaves the `DIE_ON_ERROR` entry and the
key list unchanged. -/
theorem connCheck_pres (j : TalendJob) (res : ReviewResult) :
    dGet (connCheck j res) "DIE_ON_ERROR" = dGet res "DIE_ON_ERROR" ∧
    dKeys (connCheck j res) = dKeys res := by
  unfold connCheck
  refine foldl_preserve
    (P := fun x => dGet x "DIE_ON_ERROR" = dGet res "DIE_ON_ERROR" ∧ dKeys x = dKeys res)
    j.connections res ⟨rfl, rfl⟩ ?_
  intro x cn _ hx
  split
  · rw [appendViol_other (by decide), appendViol_keys]
    exact hx
  · exact hx

/-- The uniform-parameter loop extends the `DIE_ON_ERROR` entry by
exactly the node's `dieCore` block. -/
theorem paramLoop_die {jname node : String} {params : List (String × String)}
    {res : ReviewResult} {l : List Violation}
    (hres : dGet res "DIE_ON_ERROR" = some [(jname, l)]) :
    dGet (paramLoop check_params jname res node params) "DIE_ON_ERROR"
      = some [(jname, l ++ dieCore node params)] := by
  have hrest : ∀ pe ∈ [("DIE_ON_CHILD_ERROR", "true"), ("USE_INDEPENDENT_PROCESS", "false"),
      ("TRANSMIT_ORIGINAL_CONTEXT", "true"), ("TRANSMIT_WHOLE_CONTEXT", "true")],
      pe.1 ≠ "DIE_ON_ERROR" := by
    intro pe hpe
    fin_cases hpe <;> decide
  have hstep : paramLoop check_params jname res node params
      = paramLoop [("DIE_ON_CHILD_ERROR", "true"), ("USE_INDEPENDENT_PROCESS", "false"),
          ("TRANSMIT_ORIGINAL_CONTEXT", "true"), ("TRANSMIT_WHOLE_CONTEXT", "true")] jname
          (match dGet params "DIE_ON_ERROR" with
           | some v =>
             if v ≠ "true" then
               appendViol res "DIE_ON_ERROR" jname
                 ⟨some node, none, fmtMsg "DIE_ON_ERROR" "true" v⟩
             else res
           | none => res) node params := rfl
  rw [hstep, paramLoop_other hrest]
  unfold dieCore
  cases hv : dGet params "DIE_ON_ERROR" with
  | none => simpa using hres
  | some v =>
    dsimp only
    by_cases hvt : v ≠ "true"
    · rw [if_pos hvt, if_pos hvt]
      exact appendViol_self hres
    · rw [if_neg hvt, if_neg hvt]
      simpa using hres

/-- One node-loop iteration extends the `DIE_ON_ERROR` entry by exactly
the node's `dieBlock`. -/
theorem reviewNode_die {j : TalendJob} {res res' : ReviewResult} {node : String}
    {params : List (String × String)} {l : List Violation}
    (hres : dGet res "DIE_ON_ERROR" = some [(j.name, l)])
    (h : reviewNode j res node params = Except.ok res') :
    dGet res' "DIE_ON_ERROR" = some [(j.name, l ++ dieBlock node params)] := by
  unfold reviewNode at h
  unfold dieBlock
  by_cases hg : (dHas params "ACTIVATE" && dGet params "ACTIVATE" == some "false") = true
  · rw [if_pos hg] at h
    cases h
    rw [if_pos hg]
    simpa using hres
  · rw [if_neg hg] at h
    rw [if_neg hg]
    unfold reviewNodeCore at h
    rcases exc_bind_eq_ok.mp h with ⟨res2, hedw, h2⟩
    cases h2
    obtain ⟨hd3, _⟩ := fileCheck_pres j res2 node params
    obtain ⟨hd2, _⟩ := edwCheck_pres hedw
    rw [hd3, hd2, paramLoop_die hres]

/-- One node-loop iteration preserves the rule-id key list. -/
theorem reviewNode_keys {j : TalendJob} {res res' : ReviewResult} {node : String}
    {params : List (String × String)}
    (h : reviewNode j res node params = Except.ok res') : dKeys res' = dKeys res := by
  unfold reviewNode at h
  by_cases hg : (dHas params "ACTIVATE" && dGet params "ACTIVATE" == some "false") = true
  · rw [if_pos hg] at h
    cases h
    rfl
  · rw [if_neg hg] at h
    unfold reviewNodeCore at h
    rcases exc_bind_eq_ok.mp h with ⟨res2, hedw, h2⟩
    cases h2
    obtain ⟨_, hk3⟩ := fileCheck_pres j res2 node params
    obtain ⟨_, hk2⟩ := edwCheck_pres hedw
    rw [hk3, hk2, paramLoop_keys]

/-- The whole node loop turns the empty `DIE_ON_ERROR` entry into the
concatenation of all per-node blocks. -/
theorem nodesFold_die (j : TalendJob) :
    ∀ (nodes : List (String × List (String × String))) (res res' : ReviewResult)
      (l : List Violation),
      dGet res "DIE_ON_ERROR" = some [(j.name, l)] →
      List.foldlM (fun res np => reviewNode j res np.1 np.2) res nodes = Except.ok res' →
      dGet res' "DIE_ON_ERROR"
        = some [(j.name, l ++ (nodes.map (fun np => dieBlock np.1 np.2)).flatten)]
  | [], res, res', l, hres, h => by
    simp only [List.foldlM_nil] at h
    cases h
    simpa using hres
  | np :: rest, res, res', l, hres, h => by
    obtain ⟨mid, h1, h2⟩ := foldlM_cons_ok h
    have hmid := reviewNode_die hres h1
    rw [nodesFold_die j rest mid res' (l ++ dieBlock np.1 np.2) hmid h2]
    simp [List.append_assoc]

/-- The initial skeleton's `DIE_ON_ERROR` entry. -/
theorem initResults_die (name : String) :
    dGet (initResults name) "DIE_ON_ERROR" = some [(name, [])] := rfl

/-- The rule-id keys of the initial skeleton, in creation order. -/
theorem initResults_keys (name : String) :
    dKeys (initResults name) = ["DIE_ON_ERROR", "DIE_ON_CHILD_ERROR",
      "USE_INDEPENDENT_PROCESS", "TRANSMIT_ORIGINAL_CONTEXT", "TRANSMIT_WHOLE_CONTEXT",
      "HOST", "USER", "PASS", "CREATEDIR", "CREATE", "MKDIR", "CREATE_DIRECTORY",
      "ON_COMPONENT_ERROR", "CONTEXT", "QUERY"] := rfl

/-- Lookup in a filtered dictionary when the key is absent. -/
theorem dGet_filter_none [DecidableEq κ] {d : List (κ × β)} {k : κ} (P : κ × β → Bool)
    (h : k ∉ dKeys d) : dGet (d.filter P) k = none := by
  induction d with
  | nil => simp
  | cons hd tl ih =>
    obtain ⟨a, b⟩ := hd
    simp only [dKeys, List.map_cons, List.mem_cons] at h
    push_neg at h
    cases hP : P (a, b)
    · simp only [List.filter_cons, hP, Bool.false_eq_true, if_false]
      exact ih (by simpa [dKeys] using h.2)
    · simp only [List.filter_cons, hP, if_true]
      rw [dGet_cons, if_neg (fun he => h.1 he.symm)]
      exact ih (by simpa [dKeys] using h.2)

/-- Lookup in a filtered dictionary with duplicate-free keys. -/
theorem dGet_filter_nodup [DecidableEq κ] {d : List (κ × β)} {k : κ} {v : β}
    (P : κ × β → Bool) (hn : (dKeys d).Nodup) (h : dGet d k = some v) :
    dGet (d.filter P) k = if P (k, v) = true then some v else none := by
  induction d with
  | nil => simp at h
  | cons hd tl ih =>
    obtain ⟨a, b⟩ := hd
    simp only [dKeys, List.map_cons, List.nodup_cons] at hn
    by_cases hak : a = k
    · subst hak
      rw [dGet_cons, if_pos rfl] at h
      have hbv : v = b := (Option.some.inj h).symm
      subst hbv
      cases hP : P (a, v)
      · simp only [List.filter_cons, hP, Bool.false_eq_true, if_false]
        exact dGet_filter_none P (by simpa [dKeys] using hn.1)
      · simp only [List.filter_cons, hP, if_true]
        rw [dGet_cons, if_pos rfl]
    · rw [dGet_cons, if_neg hak] at h
      have hrec := ih hn.2 h
      cases hP2 : P (a, b)
      · simpa [List.filter_cons, hP2] using hrec
      · simp only [List.filter_cons, hP2, if_true]
        rw [dGet_cons, if_neg hak]
        exact hrec

/-- Every violation in a node's block names that node as its component. -/
theorem dieBlock_components (node : String) (params : List (String × String)) :
    ∀ w ∈ dieBlock node params, w.component = some node := by
  unfold dieBlock dieCore
  split
  · simp
  · split
    · split
      · intro w hw
        simp only [List.mem_singleton] at hw
        rw [hw]
      · simp
    · simp

/-- Blocks of nodes other than `n` contribute nothing to the filter. -/
theorem blocks_filter_ne (n : String) :
    ∀ (nodes : List (String × List (String × String))), n ∉ dKeys nodes →
      ((nodes.map (fun np => dieBlock np.1 np.2)).flatten).filter
        (fun w => w.component == some n) = []
  | [], _ => rfl
  | (m, q) :: rest, h => by
    simp only [dKeys, List.map_cons, List.mem_cons] at h
    push_neg at h
    simp only [List.map_cons, List.flatten_cons, List.filter_append]
    rw [blocks_filter_ne n rest (by simpa [dKeys] using h.2)]
    have hz : (dieBlock m q).filter (fun w => w.component == some n) = [] := by
      rw [List.filter_eq_nil_iff]
      intro w hw
      rw [dieBlock_components m q w hw]
      simp only [beq_iff_eq, Option.some.injEq]
      exact fun he => h.1 he.symm
    rw [hz]
    rfl

/-- With duplicate-free node keys, filtering the concatenated blocks by
component `n` isolates node `n`'s own block. -/
theorem blocks_filter {n : String} {p : List (String × String)} :
    ∀ (nodes : List (String × List (String × String))), (dKeys nodes).Nodup →
      (n, p) ∈ nodes →
      ((nodes.map (fun np => dieBlock np.1 np.2)).flatten).filter
          (fun w => w.component == some n)
        = (dieBlock n p).filter (fun w => w.component == some n)
  | [], _, hmem => by cases hmem
  | (m, q) :: rest, hn, hmem => by
    simp only [dKeys, List.map_cons, List.nodup_cons] at hn
    simp only [List.map_cons, List.flatten_cons, List.filter_append]
    rcases List.mem_cons.mp hmem with heq | hmem'
    · cases heq
      rw [blocks_filter_ne n rest (by simpa [dKeys] using hn.1)]
      simp
    · have hnm : m ≠ n := by
        intro he
        subst he
        exact hn.1 (List.mem_map.mpr ⟨(m, p), hmem', rfl⟩)
      have hz : (dieBlock m q).filter (fun w => w.component == some n) = [] := by
        rw [List.filter_eq_nil_iff]
        intro w hw
        rw [dieBlock_components m q w hw]
        simp only [beq_iff_eq, Option.some.injEq]
        exact hnm
      rw [hz, blocks_filter rest hn.2 hmem']
      simp

/-- C8: on a parsed job with duplicate-free node keys, a retained node
defining `DIE_ON_ERROR` with a value other than "true" yields exactly
one violation for that node under rule `DIE_ON_ERROR`; its message
quotes the actual value and "true" as expected; and any node not
defining the parameter yields no violation for that rule. -/
theorem c8_die_on_error (j : TalendJob) (r : ReviewResult) (n : String)
    (p : List (String × String)) (v : String)
    (hparsed : j.parsed = true) (hnodup : (dKeys j.nodes).Nodup)
    (hmem : (n, p) ∈ j.nodes) (hact : dGet p "ACTIVATE" ≠ some "false")
    (hdie : dGet p "DIE_ON_ERROR" = some v) (hv : v ≠ "true")
    (hr : reviewE j = Except.ok r) :
    ((dGet2 r "DIE_ON_ERROR" j.name).getD []).filter (fun w => w.component == some n)
      = [⟨some n, none,
          "Value 'DIE_ON_ERROR' must be set to 'true' (actual: '" ++ v ++ "')"⟩] ∧
    (∀ n' p', (n', p') ∈ j.nodes → dGet p' "DIE_ON_ERROR" = none →
      ((dGet2 r "DIE_ON_ERROR" j.name).getD []).filter (fun w => w.component == some n')
        = []) := by
  unfold reviewE reviewWith TalendJob.ensureParsed at hr
  rw [hparsed] at hr
  simp only [if_true, exc_bind_ok] at hr
  rcases exc_bind_eq_ok.mp hr with ⟨res1, hfold, hr2⟩
  rcases exc_bind_eq_ok.mp hr2 with ⟨res2, hctx, hr3⟩
  obtain rfl := (Except.ok.inj hr3).symm
  have hfoldDie := nodesFold_die j j.nodes (initResults j.name) res1 [] (initResults_die j.name) hfold
  obtain ⟨hctxDie, hctxKeys⟩ := contextCheck_pres hctx
  obtain ⟨hconnDie, hconnKeys⟩ := connCheck_pres j res2
  have hres3 : dGet (connCheck j res2) "DIE_ON_ERROR"
      = some [(j.name, (j.nodes.map (fun np => dieBlock np.1 np.2)).flatten)] := by
    rw [hconnDie, hctxDie, hfoldDie]
    simp
  have hkeys1 : dKeys res1 = dKeys (initResults j.name) := by
    refine foldlM_preserve (P := fun x => dKeys x = dKeys (initResults j.name))
      j.nodes (initResults j.name) res1 hfold rfl ?_
    intro x b x' _ hx hP
    rw [reviewNode_keys hx]
    exact hP
  have hnod : (dKeys (connCheck j res2)).Nodup := by
    rw [hconnKeys, hctxKeys, hkeys1, initResults_keys]
    decide
  have hfil := dGet_filter_nodup
    (fun ri => !((dGet ri.2 j.name).getD []).isEmpty) hnod hres3
  have hLL : (dGet2 ((connCheck j res2).filter
      (fun ri => !((dGet ri.2 j.name).getD []).isEmpty)) "DIE_ON_ERROR" j.name).getD []
      = (j.nodes.map (fun np => dieBlock np.1 np.2)).flatten := by
    unfold dGet2
    rw [hfil]
    by_cases hL : ((j.nodes.map (fun np => dieBlock np.1 np.2)).flatten).isEmpty
    · have hLnil : (j.nodes.map (fun np => dieBlock np.1 np.2)).flatten = [] := by
        simpa [List.isEmpty_iff] using hL
      simp [hLnil]
    · have hc : ((fun ri => !((dGet ri.2 j.name).getD []).isEmpty)
          ("DIE_ON_ERROR", [(j.name, (j.nodes.map (fun np => dieBlock np.1 np.2)).flatten)]))
          = true := by
        simp only []
        rw [dGet_cons, if_pos rfl]
        simpa using hL
      rw [if_pos hc]
      simp
  constructor
  · rw [hLL, blocks_filter j.nodes hnodup hmem]
    have hblock : dieBlock n p = [⟨some n, none,
        "Value 'DIE_ON_ERROR' must be set to 'true' (actual: '" ++ v ++ "')"⟩] := by
      unfold dieBlock dieCore
      have hg : (dHas p "ACTIVATE" && dGet p "ACTIVATE" == some "false") = false := by
        have : (dGet p "ACTIVATE" == some "false") = false := beq_eq_false_iff_ne.mpr hact
        simp [this]
      rw [hg]
      simp only [Bool.false_eq_true, if_false]
      rw [hdie]
      dsimp only
      rw [if_pos hv]
      rfl
    rw [hblock]
    simp [List.filter_cons]
  · intro n' p' hmem' hnone
    rw [hLL, blocks_filter j.nodes hnodup hmem']
    have hblock' : dieBlock n' p' = [] := by
      unfold dieBlock dieCore
      split
      · rfl
      · rw [hnone]
    rw [hblock']
    rfl

/-- C8 witness: job `B` of the counterexample registry has one node with
`DIE_ON_ERROR=false`; its review contains exactly the expected
violation. -/
theorem c8_witness :
    reviewE jobB2 = Except.ok [("DIE_ON_ERROR", [("B",
      [⟨some "tJava_1", none,
        "Value 'DIE_ON_ERROR' must be set to 'true' (actual: 'false')"⟩])])] ∧
    (((dGet2 [("DIE_ON_ERROR", [("B",
        [⟨some "tJava_1", none,
          "Value 'DIE_ON_ERROR' must be set to 'true' (actual: 'false')"⟩])])]
        "DIE_ON_ERROR" jobB2.name).getD []).filter
          (fun w => w.component == some "tJava_1")
      = [⟨some "tJava_1", none,
          "Value 'DIE_ON_ERROR' must be set to 'true' (actual: 'false')"⟩]) :=
  ⟨by decide,
   (c8_die_on_error jobB2 _ "tJava_1"
      [("UNIQUE_NAME", "tJava_1"), ("DIE_ON_ERROR", "false"), ("_componentName", "tJava")]
      "false" (by decide) (by decide) (by decide) (by decide) (by decide) (by decide)
      (by decide)).1⟩

/-! ### Claim C2 -/

/-- `appendViol` preserves the singleton-inner shape. -/
theorem appendViol_inner {jname : String} {res : ReviewResult} {rule nm : String}
    {v : Violation} (h : Inner jname res) : Inner jname (appendViol res rule nm v) := by
  unfold appendViol
  cases hg : dGet res rule with
  | none => exact h
  | some inner =>
    dsimp only
    obtain ⟨l, hl⟩ := h (rule, inner) (dGet_mem hg)
    subst hl
    cases hgi : dGet [(jname, l)] nm with
    | none => exact h
    | some l0 =>
      have hnm : jname = nm ∧ l = l0 := by
        rw [dGet_cons] at hgi
        by_cases hj : jname = nm
        · rw [if_pos hj] at hgi
          exact ⟨hj, Option.some.inj hgi⟩
        · rw [if_neg hj] at hgi
          simp at hgi
      obtain ⟨rfl, rfl⟩ := hnm
      intro ri hri
      rcases mem_dIns hri with hold | hnew
      · exact h ri hold
      · rw [hnew]
        refine ⟨l ++ [v], ?_⟩
        show dIns [(jname, l)] jname (l ++ [v]) = [(jname, l ++ [v])]
        simp [dIns, dRep, dHas]

/-- The uniform-parameter loop preserves the singleton-inner shape. -/
theorem paramLoop_inner {jname0 : String} {table : List (String × String)} {jname : String}
    {res : ReviewResult} {node : String} {params : List (String × String)}
    (h : Inner jname0 res) : Inner jname0 (paramLoop table jname res node params) := by
  unfold paramLoop
  refine foldl_preserve (P := Inner jname0) table res h ?_
  intro x pe _ hx
  cases dGet params pe.1 with
  | none => exact hx
  | some v =>
    dsimp only
    split
    · exact appendViol_inner hx
    · exact hx

/-- The vendor-credential check preserves the singleton-inner shape. -/
theorem edwCheck_inner {jname0 : String} {j : TalendJob} {res res' : ReviewResult}
    {node : String} {params : List (String × String)}
    (hok : edwCheck j res node params = Except.ok res') (h : Inner jname0 res) :
    Inner jname0 res' := by
  unfold edwCheck at hok
  split at hok
  · rcases exc_bind_eq_ok.mp hok with ⟨comp, hcomp, h2⟩
    split at h2
    · refine foldlM_preserve (P := Inner jname0) edw_params res res' h2 h ?_
      intro x pa x' _ hx hP
      cases hv : dGet params pa.1 with
      | none =>
        rw [hv] at hx
        cases hx
        exact hP
      | some v =>
        rw [hv] at hx
        dsimp only at hx
        by_cases hcv : (!pa.2.contains v) = true
        · rw [if_pos hcv] at hx
          rcases exc_bind_eq_ok.mp hx with ⟨ty, hty, hx2⟩
          cases hx2
          exact appendViol_inner hP
        · rw [if_neg hcv] at hx
          cases hx
          exact hP
    · cases h2
      exact h
  · cases hok
    exact h

/-- One node-loop iteration preserves the singleton-inner shape. -/
theorem reviewNode_inner {jname0 : String} {j : TalendJob} {res res' : ReviewResult}
    {node : String} {params : List (String × String)}
    (hok : reviewNode j res node params = Except.ok res') (h : Inner jname0 res) :
    Inner jname0 res' := by
  unfold reviewNode at hok
  split at hok
  · cases hok
    exact h
  · unfold reviewNodeCore at hok
    rcases exc_bind_eq_ok.mp hok with ⟨res2, hedw, h2⟩
    cases h2
    have h1 : Inner jname0 res2 := edwCheck_inner hedw (paramLoop_inner h)
    unfold fileCheck
    split
    · exact paramLoop_inner h1
    · exact h1

/-- The context check preserves the singleton-inner shape. -/
theorem contextCheck_inner {jname0 : String} {j : TalendJob} {res res' : ReviewResult}
    (hok : contextCheck j res = Except.ok res') (h : Inner jname0 res) : Inner jname0 res' := by
  unfold contextCheck at hok
  split at hok
  · split at hok
    · cases hok
    · cases hok
      refine foldl_preserve (P := Inner jname0) edw_context res h ?_
      intro x k _ hx
      split
      · exact hx
      · exact appendViol_inner hx
  · cases hok
    exact h

/-- The connection check preserves the singleton-inner shape. -/
theorem connCheck_inner {jname0 : String} {j : TalendJob} {res : ReviewResult}
    (h : Inner jname0 res) : Inner jname0 (connCheck j res) := by
  unfold connCheck
  refine foldl_preserve (P := Inner jname0) j.connections res h ?_
  intro x cn _ hx
  split
  · exact appendViol_inner hx
  · exact hx

/-- The initial skeleton has singleton inners. -/
theorem initResults_inner (name : String) : Inner name (initResults name) := by
  intro ri hri
  unfold initResults at hri
  rcases List.mem_append.mp hri with hri | hri
  · rcases List.mem_append.mp hri with hri | hri
    · rcases List.mem_append.mp hri with hri | hri
      · rcases List.mem_map.mp hri with ⟨kv, _, heq⟩
        exact ⟨[], by rw [← heq]⟩
      · rcases List.mem_map.mp hri with ⟨kv, _, heq⟩
        exact ⟨[], by rw [← heq]⟩
    · rcases List.mem_map.mp hri with ⟨kv, _, heq⟩
      exact ⟨[], by rw [← heq]⟩
  · fin_cases hri <;> exact ⟨[], rfl⟩

/-- A successful single-job review is well-formed: duplicate-free rule
keys and duplicate-free (singleton) inner keys. -/
theorem reviewE_wf {j : TalendJob} {r : ReviewResult} (h : reviewE j = Except.ok r) :
    Rwf r := by
  unfold reviewE reviewWith at h
  rcases exc_bind_eq_ok.mp h with ⟨jp, hjp, h1⟩
  rcases exc_bind_eq_ok.mp h1 with ⟨res1, hfold, h2⟩
  rcases exc_bind_eq_ok.mp h2 with ⟨res2, hctx, h3⟩
  obtain rfl := (Except.ok.inj h3).symm
  have hkeys1 : dKeys res1 = dKeys (initResults jp.name) := by
    refine foldlM_preserve (P := fun x => dKeys x = dKeys (initResults jp.name))
      jp.nodes (initResults jp.name) res1 hfold rfl ?_
    intro x b x' _ hx hP
    rw [reviewNode_keys hx]
    exact hP
  have hinner1 : Inner jp.name res1 := by
    refine foldlM_preserve (P := Inner jp.name) jp.nodes (initResults jp.name) res1 hfold
      (initResults_inner jp.name) ?_
    intro x b x' _ hx hP
    exact reviewNode_inner hx hP
  have hinner2 : Inner jp.name (connCheck jp res2) :=
    connCheck_inner (contextCheck_inner hctx hinner1)
  obtain ⟨_, hctxKeys⟩ := contextCheck_pres hctx
  obtain ⟨_, hconnKeys⟩ := connCheck_pres jp res2
  constructor
  · have hsub : List.Sublist
        (dKeys ((connCheck jp res2).filter
          (fun ri => !((dGet ri.2 jp.name).getD []).isEmpty)))
        (dKeys (connCheck jp res2)) := List.Sublist.map _ (List.filter_sublist _)
    refine List.Nodup.sublist hsub ?_
    rw [hconnKeys, hctxKeys, hkeys1, initResults_keys]
    decide
  · intro ri hri
    obtain ⟨l, hl⟩ := hinner2 ri (List.mem_filter.mp hri).1
    rw [hl]
    simp [dKeys]

/-- The keys of a `dUpd` of duplicate-free dictionaries stay
duplicate-free. -/
theorem dUpd_keys_nodup [DecidableEq κ] {old other : List (κ × β)}
    (h : (dKeys old).Nodup) : (dKeys (dUpd old other)).Nodup := by
  unfold dUpd
  refine foldl_preserve (P := fun x => (dKeys x).Nodup) other old h ?_
  intro x kv _ hx
  exact dKeys_dIns_nodup _ _ _ hx

/-- One merge step preserves well-formedness, provided the merged entry
has duplicate-free inner keys. -/
theorem mergeStep_wf {x : ReviewResult} {ei : String × List (String × List Violation)}
    (hx : Rwf x) (hei : (dKeys ei.2).Nodup) : Rwf (mergeStep x ei) := by
  unfold mergeStep
  cases hg : dGet x ei.1 with
  | none =>
    dsimp only
    constructor
    · exact dKeys_dIns_nodup _ _ _ hx.1
    · intro ri hri
      rcases mem_dIns hri with hold | hnew
      · exact hx.2 ri hold
      · rw [hnew]
        exact hei
  | some old =>
    dsimp only
    constructor
    · exact dKeys_dIns_nodup _ _ _ hx.1
    · intro ri hri
      rcases mem_dIns hri with hold | hnew
      · exact hx.2 ri hold
      · rw [hnew]
        exact dUpd_keys_nodup (hx.2 (ei.1, old) (dGet_mem hg))

/-- `mergeErrs` preserves well-formedness. -/
theorem mergeErrs_wf {a b : ReviewResult} (ha : Rwf a) (hb : Rwf b) :
    Rwf (mergeErrs a b) := by
  unfold mergeErrs
  refine foldl_preserve (P := Rwf) b a ha ?_
  intro x ei hei hx
  exact mergeStep_wf hx (hb.2 ei hei)

/-- Lookup in a `dict.update` result: entries of the updating dictionary
win, provided its keys are duplicate-free. -/
theorem dUpd_lookup [DecidableEq κ] :
    ∀ (inner old : List (κ × β)), (dKeys inner).Nodup → ∀ (n : κ),
      dGet (dUpd old inner) n = (dGet inner n).or (dGet old n)
  | [], old, _, n => by simp [dUpd]
  | (k, v) :: rest, old, hn, n => by
    simp only [dKeys, List.map_cons, List.nodup_cons] at hn
    rw [show dUpd old ((k, v) :: rest) = dUpd (dIns old k v) rest from rfl]
    rw [dUpd_lookup rest (dIns old k v) hn.2 n]
    by_cases hkn : n = k
    · subst hkn
      have hr : dGet rest n = none := by
        refine dGet_eq_none_of_not_dHas ?_
        cases hh : dHas rest n with
        | false => rfl
        | true => exact absurd ((dHas_iff_mem_dKeys _ _).mp hh) hn.1
      rw [hr, dGet_dIns_self, dGet_cons, if_pos rfl]
      rfl
    · rw [dGet_dIns_ne _ _ _ _ hkn, dGet_cons, if_neg (fun he => hkn he.symm)]

/-- Two-level lookup after one merge step. -/
theorem mergeStep_dGet2 {x : ReviewResult} {e1 : String}
    {e2 : List (String × List Violation)} (hei : (dKeys e2).Nodup) (rule name : String) :
    dGet2 (mergeStep x (e1, e2)) rule name =
      if rule = e1 then (dGet e2 name).or (dGet2 x rule name) else dGet2 x rule name := by
  unfold mergeStep dGet2
  by_cases hr : rule = e1
  · subst hr
    cases hg : dGet x rule with
    | none =>
      dsimp only
      rw [if_pos rfl, dGet_dIns_self]
      simp
    | some old =>
      dsimp only
      rw [if_pos rfl, dGet_dIns_self]
      show dGet (dUpd old e2) name = (dGet e2 name).or (dGet old name)
      exact dUpd_lookup e2 old hei name
  · cases hg : dGet x e1 with
    | none =>
      dsimp only
      rw [if_neg hr, dGet_dIns_ne _ _ _ _ hr]
    | some old =>
      dsimp only
      rw [if_neg hr, dGet_dIns_ne _ _ _ _ hr]

/-- Two-level lookup after merging one child result: the child's entry
wins where defined. -/
theorem mergeErrs_dGet2 :
    ∀ (b : ReviewResult), Rwf b → ∀ (a : ReviewResult) (rule name : String),
      dGet2 (mergeErrs a b) rule name = (dGet2 b rule name).or (dGet2 a rule name)
  | [], _, a, rule, name => by simp [mergeErrs, dGet2]
  | ei :: rest, hb, a, rule, name => by
    obtain ⟨e1, e2⟩ := ei
    obtain ⟨hkeys, hinner⟩ := hb
    simp only [dKeys, List.map_cons, List.nodup_cons] at hkeys
    have hbrest : Rwf rest := ⟨hkeys.2, fun ri hri => hinner ri (List.mem_cons_of_mem _ hri)⟩
    rw [show mergeErrs a ((e1, e2) :: rest) = mergeErrs (mergeStep a (e1, e2)) rest from rfl]
    rw [mergeErrs_dGet2 rest hbrest (mergeStep a (e1, e2)) rule name]
    rw [mergeStep_dGet2 (hinner (e1, e2) (by simp)) rule name]
    by_cases hr : rule = e1
    · rw [if_pos hr]
      have hrestnone : dGet2 rest rule name = none := by
        unfold dGet2
        have hnone : dGet rest rule = none := by
          refine dGet_eq_none_of_not_dHas ?_
          cases hh : dHas rest rule with
          | false => rfl
          | true =>
            subst hr
            exact absurd ((dHas_iff_mem_dKeys _ _).mp hh) hkeys.1
        rw [hnone]
        rfl
      rw [hrestnone, Option.none_or]
      have hcons : dGet2 ((e1, e2) :: rest) rule name = dGet e2 name := by
        unfold dGet2
        rw [dGet_cons, if_pos hr.symm]
        rfl
      rw [hcons]
    · rw [if_neg hr]
      have hcons : dGet2 ((e1, e2) :: rest) rule name = dGet2 rest rule name := by
        unfold dGet2
        rw [dGet_cons, if_neg (fun he => hr he.symm)]
      rw [hcons]

/-- Two-level lookup after folding the merge over a list of child
results: the right-most defined entry wins. -/
theorem foldl_mergeErrs_dGet2 :
    ∀ (crs : List ReviewResult) (acc : ReviewResult), (∀ c ∈ crs, Rwf c) →
      ∀ (rule name : String),
      dGet2 (crs.foldl mergeErrs acc) rule name
        = (crs.reverse.findSome? (fun x => dGet2 x rule name)).or (dGet2 acc rule name)
  | [], acc, _, rule, name => by simp
  | c :: rest, acc, hw, rule, name => by
    rw [List.foldl_cons]
    rw [foldl_mergeErrs_dGet2 rest (mergeErrs acc c)
      (fun x hx => hw x (List.mem_cons_of_mem _ hx)) rule name]
    rw [mergeErrs_dGet2 c (hw c (by simp)) acc rule name]
    rw [List.reverse_cons, List.findSome?_append, Option.or_assoc]
    congr 1
    cases hfo : dGet2 c rule name <;> simp [List.findSome?_cons, hfo]

/-- Every successful (fueled) recursive review result is well-formed. -/
theorem reviewP_wf (p : TalendProject) :
    ∀ (fuel : Nat) (job : String) (c : Bool) (r : ReviewResult),
      p.reviewP fuel job c = Except.ok r → Rwf r
  | 0, job, c, r, h => by simp [TalendProject.reviewP] at h
  | fuel + 1, job, c, r, h => by
    unfold TalendProject.reviewP at h
    by_cases hJ : job = ""
    · rw [if_pos hJ] at h
      cases h
    · rw [if_neg hJ] at h
      rcases exc_bind_eq_ok.mp h with ⟨jb, hjb, h2⟩
      rcases exc_bind_eq_ok.mp h2 with ⟨jbp, hjp, h3⟩
      rcases exc_bind_eq_ok.mp h3 with ⟨own, hown, h4⟩
      have hwown := reviewE_wf hown
      cases c with
      | false =>
        simp only [Bool.false_eq_true, if_false] at h4
        cases h4
        exact hwown
      | true =>
        simp only [if_true] at h4
        refine foldlM_preserve (P := Rwf) jbp.children own r h4 hwown ?_
        intro x b x' _ hx hP
        rcases exc_bind_eq_ok.mp hx with ⟨ce, hce, hx2⟩
        cases hx2
        exact mergeErrs_wf hP (reviewP_wf p fuel b true ce hce)

/-- A successful merge fold over the children is the same as mapping the
recursive review over them and folding the merge over the results. -/
theorem foldlM_merge_eq_mapM (g : String → Except String ReviewResult) :
    ∀ (cs : List String) (own r : ReviewResult),
      (cs.foldlM (fun ret child => do
          let child_errs ← g child
          Except.ok (mergeErrs ret child_errs)) own) = Except.ok r →
      ∃ crs, cs.mapM g = Except.ok crs ∧ r = crs.foldl mergeErrs own
  | [], own, r, h => by
    simp only [List.foldlM_nil] at h
    cases h
    exact ⟨[], rfl, rfl⟩
  | c :: cs, own, r, h => by
    obtain ⟨mid, h1, h2⟩ := foldlM_cons_ok h
    rcases exc_bind_eq_ok.mp h1 with ⟨ce, hg, h1b⟩
    cases h1b
    obtain ⟨crs, hmap, hfold⟩ := foldlM_merge_eq_mapM g cs (mergeErrs own ce) r h2
    refine ⟨ce :: crs, ?_, ?_⟩
    · rw [List.mapM_cons, hg]
      simp only [exc_bind_ok]
      rw [hmap]
      simp only [exc_bind_ok]
      rfl
    · rw [List.foldl_cons]
      exact hfold

/-- Membership in a successful `mapM` run comes from some input. -/
theorem mapM_mem_ok (g : String → Except String ReviewResult) :
    ∀ (cs : List String) (crs : List ReviewResult), cs.mapM g = Except.ok crs →
      ∀ ce ∈ crs, ∃ c, c ∈ cs ∧ g c = Except.ok ce
  | [], crs, h, ce, hce => by
    simp only [List.mapM_nil] at h
    cases h
    cases hce
  | c :: cs, crs, h, ce, hce => by
    rw [List.mapM_cons] at h
    rcases exc_bind_eq_ok.mp h with ⟨b, hb, h2⟩
    rcases exc_bind_eq_ok.mp h2 with ⟨bs, hbs, h3⟩
    have hcrs : crs = b :: bs := by cases h3; rfl
    subst hcrs
    rcases List.mem_cons.mp hce with rfl | hce'
    · exact ⟨c, by simp, hb⟩
    · obtain ⟨c', hc', hg'⟩ := mapM_mem_ok g cs bs hbs ce hce'
      exact ⟨c', List.mem_cons_of_mem _ hc', hg'⟩

/-- C2 (amended): `review(J, true)` merges `J`'s own result with the
recursively reviewed result of each child by rule-id then by job-name,
but when the same rule-id and job-name occur in both operands the later
operand's violation list replaces the earlier one (`dict.update`), it is
never concatenated: every `(rule, job)` slot of the result holds the
right-most defined entry among `J`'s own result followed by the child
results in order. -/
theorem c2_review_children_merge (p : TalendProject) (fuel : Nat) (J : String)
    (r : ReviewResult) (h : p.reviewP (fuel + 1) J true = Except.ok r) :
    ∃ jb jbp own crs,
      p.lookupJob J = Except.ok jb ∧
      jb.ensureParsed = Except.ok jbp ∧
      reviewE jbp = Except.ok own ∧
      jbp.children.mapM (fun c => p.reviewP fuel c true) = Except.ok crs ∧
      ∀ rule name, dGet2 r rule name
        = (own :: crs).reverse.findSome? (fun x => dGet2 x rule name) := by
  unfold TalendProject.reviewP at h
  by_cases hJ : J = ""
  · rw [if_pos hJ] at h
    cases h
  · rw [if_neg hJ] at h
    rcases exc_bind_eq_ok.mp h with ⟨jb, hjb, h2⟩
    rcases exc_bind_eq_ok.mp h2 with ⟨jbp, hjp, h3⟩
    rcases exc_bind_eq_ok.mp h3 with ⟨own, hown, h4⟩
    simp only [if_true] at h4
    obtain ⟨crs, hmap, hfold⟩ :=
      foldlM_merge_eq_mapM (fun c => p.reviewP fuel c true) jbp.children own r h4
    refine ⟨jb, jbp, own, crs, hjb, hjp, hown, hmap, ?_⟩
    intro rule name
    have hw : ∀ x ∈ crs, Rwf x := by
      intro x hx
      obtain ⟨c, _, hc⟩ := mapM_mem_ok _ jbp.children crs hmap x hx
      exact reviewP_wf p fuel c true x hc
    subst hfold
    rw [foldl_mergeErrs_dGet2 crs own hw rule name]
    rw [List.reverse_cons, List.findSome?_append]
    congr 1
    cases hfo : dGet2 own rule name <;> simp [List.findSome?_cons, hfo]

/-- C2 counterexample: on the registry where `A`'s children list is
`["B", "B"]` and `B` carries one `DIE_ON_ERROR` violation, the code's
result differs from the claimed concatenating merge — the code keeps one
copy of `B`'s violation list (the second merge replaces the first),
while concatenation would double it. -/
theorem c2_counterexample :
    pC2.reviewP 10 "A" true ≠
      (do
        let jb ← pC2.lookupJob "A"
        let jbp ← jb.ensureParsed
        let own ← reviewE jbp
        let crs ← jbp.children.mapM (fun c => pC2.reviewP 9 c true)
        Except.ok (crs.foldl concatMerge own)) := by
  decide

/-- C2 witness: the amended characterization instantiated on the
concrete registry. -/
theorem c2_witness :
    ∃ jb jbp own crs,
      pC2.lookupJob "A" = Except.ok jb ∧
      jb.ensureParsed = Except.ok jbp ∧
      reviewE jbp = Except.ok own ∧
      jbp.children.mapM (fun c => pC2.reviewP 9 c true) = Except.ok crs ∧
      ∀ rule name, dGet2 [("DIE_ON_ERROR", [("B",
          [⟨some "tJava_1", none,
            "Value 'DIE_ON_ERROR' must be set to 'true' (actual: 'false')"⟩])])] rule name
        = (own :: crs).reverse.findSome? (fun x => dGet2 x rule name) :=
  c2_review_children_merge pC2 9 "A"
    [("DIE_ON_ERROR", [("B",
      [⟨some "tJava_1", none,
        "Value 'DIE_ON_ERROR' must be set to 'true' (actual: 'false')"⟩])])]
    (by decide)

end Talend
